import Mathlib

/-!
# Verification of the background-remover image-processing worker

Shallow embedding of the pixel-level segmentation engine of the
background-remover web application, together with proofs of the spec's
testable properties.

The embedded code comes from:

* the image-processing web worker (`colorDistanceSquared`, `gaussianFalloff`,
  `detectDominantColor`, `calculateAutoThreshold`, `magicSelect`,
  `processImage`, the `self.onmessage` dispatcher and its cancellation flag);
* `src/lib/maskUtils.ts` (`encodeMaskToRLE`, `decodeMaskFromRLE`,
  `mergeRLEMasks`).

Modelling conventions:

* JavaScript numbers are modelled by exact arithmetic: byte values by `ℕ`,
  signed intermediate values by `ℤ`, fractional values (thresholds,
  tolerances, variances, kernel weights) by `ℚ`.  `Math.round` (half-up) is
  `jsRound`, `Math.floor` on non-negative rationals is `Int.floor`/`Nat`
  division.
* `Uint8Array`/`Uint8ClampedArray` buffers are `List ℕ`.  JavaScript
  typed-array writes out of range are silently dropped — exactly the
  behaviour of `List.set`.  Typed-array reads out of range yield `undefined`
  (so every arithmetic comparison involving them is false); where this
  matters (the flood fill seed) reads are modelled with `List.get?` and a
  `none` result fails every comparison.
* `Math.sqrt` and `Math.exp` are double-precision in the source.  They are
  modelled by the exact-rational stand-ins `sqrtQ` and `expQ` below.  No
  theorem in this file depends on the values these functions return — they
  only flow into alpha bytes whose exact magnitude no proved property
  mentions — but the functions must exist for the embedding to have the
  same shape as the source.
-/

/-! ## Color metrics -/

/-- `SQUARED_COLOR_WEIGHTS = { r: 2, g: 4, b: 3 }` of the worker. -/
def SQUARED_COLOR_WEIGHTS : ℤ × ℤ × ℤ := (2, 4, 3)

/-- `colorDistanceSquared` of the worker: perceptually weighted squared
color distance `2·ΔR² + 4·ΔG² + 3·ΔB²`. -/
def colorDistanceSquared (r1 g1 b1 r2 g2 b2 : ℤ) : ℤ :=
  let rDiff := r1 - r2
  let gDiff := g1 - g2
  let bDiff := b1 - b2
  SQUARED_COLOR_WEIGHTS.1 * rDiff * rDiff +
    SQUARED_COLOR_WEIGHTS.2.1 * gDiff * gDiff +
    SQUARED_COLOR_WEIGHTS.2.2 * bDiff * bDiff

theorem colorDistanceSquared_nonneg (r1 g1 b1 r2 g2 b2 : ℤ) :
    0 ≤ colorDistanceSquared r1 g1 b1 r2 g2 b2 := by
  have h1 : 0 ≤ (r1 - r2) * (r1 - r2) := mul_self_nonneg _
  have h2 : 0 ≤ (g1 - g2) * (g1 - g2) := mul_self_nonneg _
  have h3 : 0 ≤ (b1 - b2) * (b1 - b2) := mul_self_nonneg _
  unfold colorDistanceSquared SQUARED_COLOR_WEIGHTS
  simp only []
  nlinarith

theorem colorDistanceSquared_self (r g b : ℤ) :
    colorDistanceSquared r g b r g b = 0 := by
  simp [colorDistanceSquared]

/-- JavaScript `Math.round`: round half away from zero; for the non-negative
values rounded in this code base this is `⌊q + 1/2⌋`. -/
def jsRound (q : ℚ) : ℤ := Int.floor (q + 1/2)

/-- Exact-rational stand-in for the double-precision `Math.sqrt`
(see the module docstring: no proved property depends on its values).
`sqrtQ q` is `Nat.sqrt` applied to a scaled numerator, giving a rational
approximation of the square root of `max q 0`. -/
def sqrtQ (q : ℚ) : ℚ :=
  if q ≤ 0 then 0
  else (Nat.sqrt (q.num.toNat * q.den) : ℚ) / (q.den : ℚ)

/-- Exact-rational stand-in for the double-precision `Math.exp`
(see the module docstring: no proved property depends on its values):
a degree-4 truncated Taylor series. -/
def expQ (q : ℚ) : ℚ :=
  1 + q + q ^ 2 / 2 + q ^ 3 / 6 + q ^ 4 / 24

/-! ## RLE mask codec (`src/lib/maskUtils.ts`, duplicated in the worker)

Masks are flat `List ℕ` buffers; a run list is a `List (ℕ × ℕ)` of
`(start, length)` pairs, the flattened form of the `Uint32Array` of the
source. -/

/-- The scan loop of `encodeMaskToRLE`: `i` is the current index and the
`Option ℕ` state is `inRun`/`runStart` (`some runStart` iff `inRun`). -/
def encodeAux : List ℕ → ℕ → Option ℕ → List (ℕ × ℕ)
  | [], _, none => []
  | [], i, some runStart => [(runStart, i - runStart)]
  | v :: rest, i, none =>
      if v > 0 then encodeAux rest (i + 1) (some i)
      else encodeAux rest (i + 1) none
  | v :: rest, i, some runStart =>
      if v > 0 then encodeAux rest (i + 1) (some runStart)
      else (runStart, i - runStart) :: encodeAux rest (i + 1) none

/-- `encodeMaskToRLE`: encode a binary mask to RLE `(start, length)` pairs. -/
def encodeMaskToRLE (mask : List ℕ) : List (ℕ × ℕ) :=
  encodeAux mask 0 none

/-- `decodeMaskFromRLE`: reconstruct a full-size binary mask by filling each
run, clipped to `maskSize` (`end = Math.min(start + length, maskSize)`). -/
def decodeMaskFromRLE (rle : List (ℕ × ℕ)) (maskSize : ℕ) : List ℕ :=
  rle.foldl
    (fun mask p =>
      (List.range' p.1 (min (p.1 + p.2) maskSize - p.1)).foldl
        (fun m j => m.set j 1) mask)
    (List.replicate maskSize 0)

/-- A flat index `j` is covered by one of the `(start, length)` runs. -/
def CoveredBy (rle : List (ℕ × ℕ)) (j : ℕ) : Prop :=
  ∃ p ∈ rle, p.1 ≤ j ∧ j < p.1 + p.2

instance : DecidablePred fun p : List (ℕ × ℕ) × ℕ => CoveredBy p.1 p.2 :=
  fun p => List.decidableBEx _ p.1

instance (rle : List (ℕ × ℕ)) (j : ℕ) : Decidable (CoveredBy rle j) :=
  List.decidableBEx _ rle

example : encodeMaskToRLE [0, 1, 1, 0, 1] = [(1, 2), (4, 1)] := by decide
example : decodeMaskFromRLE [(1, 2), (4, 1)] 5 = [0, 1, 1, 0, 1] := by decide
example : decodeMaskFromRLE [(0, 5)] 2 = [1, 1] := by decide

/-! ### Characterisation of the RLE codec -/

theorem length_fillRun (k : ℕ) : ∀ (a : ℕ) (m : List ℕ),
    ((List.range' a k).foldl (fun acc j => acc.set j 1) m).length = m.length := by
  induction k with
  | zero => intro a m; rfl
  | succ k ih =>
    intro a m
    rw [List.range'_succ, List.foldl_cons, ih, List.length_set]

theorem getElem?_fillRun (k : ℕ) : ∀ (a : ℕ) (m : List ℕ) (j : ℕ),
    ((List.range' a k).foldl (fun acc j => acc.set j 1) m)[j]? =
      if a ≤ j ∧ j < a + k ∧ j < m.length then some 1 else m[j]? := by
  induction k with
  | zero =>
    intro a m j
    simp only [List.range'_zero, List.foldl_nil]
    rw [if_neg (by omega : ¬(a ≤ j ∧ j < a + 0 ∧ j < m.length))]
  | succ k ih =>
    intro a m j
    rw [List.range'_succ, List.foldl_cons, ih, List.length_set]
    rcases eq_or_ne j a with rfl | hne
    · rw [if_neg (by omega : ¬(j + 1 ≤ j ∧ j < j + 1 + k ∧ j < m.length))]
      by_cases hlt : j < m.length
      · rw [List.getElem?_set_eq_of_lt 1 hlt, if_pos ⟨le_refl j, by omega, hlt⟩]
      · rw [if_neg (by omega : ¬(j ≤ j ∧ j < j + (k + 1) ∧ j < m.length)),
          List.set_eq_of_length_le (by omega)]
    · rw [List.getElem?_set_ne (Ne.symm hne)]
      by_cases h2 : a + 1 ≤ j ∧ j < a + 1 + k ∧ j < m.length
      · rw [if_pos h2, if_pos (by omega)]
      · rw [if_neg h2, if_neg (by omega)]

theorem coveredBy_cons (p : ℕ × ℕ) (rest : List (ℕ × ℕ)) (j : ℕ) :
    CoveredBy (p :: rest) j ↔ (p.1 ≤ j ∧ j < p.1 + p.2) ∨ CoveredBy rest j := by
  simp only [CoveredBy, List.mem_cons]
  constructor
  · rintro ⟨q, hq | hq, h⟩
    · subst hq; exact Or.inl h
    · exact Or.inr ⟨q, hq, h⟩
  · rintro (h | ⟨q, hq, h⟩)
    · exact ⟨p, Or.inl rfl, h⟩
    · exact ⟨q, Or.inr hq, h⟩

theorem getElem?_decodeFold (rle : List (ℕ × ℕ)) (n : ℕ) :
    ∀ (m : List ℕ), m.length = n → ∀ j : ℕ,
      (rle.foldl (fun mask p =>
          (List.range' p.1 (min (p.1 + p.2) n - p.1)).foldl
            (fun acc j => acc.set j 1) mask) m)[j]? =
        if j < n ∧ CoveredBy rle j then some 1 else m[j]? := by
  induction rle with
  | nil =>
    intro m _ j
    simp [CoveredBy]
  | cons p rest ih =>
    intro m hm j
    rw [List.foldl_cons, ih _ (by rw [length_fillRun]; exact hm), getElem?_fillRun]
    have harith : (p.1 ≤ j ∧ j < p.1 + (min (p.1 + p.2) n - p.1) ∧ j < m.length)
        ↔ ((p.1 ≤ j ∧ j < p.1 + p.2) ∧ j < n) := by
      rw [hm]; omega
    have hcons := coveredBy_cons p rest j
    by_cases h1 : j < n
    · by_cases h2 : CoveredBy rest j
      · rw [if_pos ⟨h1, h2⟩, if_pos ⟨h1, hcons.mpr (Or.inr h2)⟩]
      · rw [if_neg (fun h => h2 h.2)]
        by_cases h3 : p.1 ≤ j ∧ j < p.1 + p.2
        · rw [if_pos (harith.mpr ⟨h3, h1⟩), if_pos ⟨h1, hcons.mpr (Or.inl h3)⟩]
        · rw [if_neg (fun h => h3 (harith.mp h).1),
            if_neg (fun h => (hcons.mp h.2).elim h3 h2)]
    · rw [if_neg (fun h => h1 h.1), if_neg (fun h => h1 (harith.mp h).2),
        if_neg (fun h => h1 h.1)]

theorem length_decodeMaskFromRLE (rle : List (ℕ × ℕ)) (n : ℕ) :
    (decodeMaskFromRLE rle n).length = n := by
  unfold decodeMaskFromRLE
  have h : ∀ (l : List (ℕ × ℕ)) (m : List ℕ),
      (l.foldl (fun mask p =>
          (List.range' p.1 (min (p.1 + p.2) n - p.1)).foldl
            (fun acc j => acc.set j 1) mask) m).length = m.length := by
    intro l
    induction l with
    | nil => intro m; rfl
    | cons p rest ih => intro m; rw [List.foldl_cons, ih, length_fillRun]
  rw [h, List.length_replicate]

theorem getElem?_decodeMaskFromRLE (rle : List (ℕ × ℕ)) (n j : ℕ) :
    (decodeMaskFromRLE rle n)[j]? =
      if j < n then some (if CoveredBy rle j then 1 else 0) else none := by
  unfold decodeMaskFromRLE
  rw [getElem?_decodeFold rle n _ (List.length_replicate n 0) j]
  by_cases h1 : j < n <;> by_cases h2 : CoveredBy rle j <;>
    simp [h1, h2, List.getElem?_eq_none, Nat.le_of_not_lt]

theorem getD_cons_shift (v : ℕ) (rest : List ℕ) (i0 j : ℕ) (h : i0 + 1 ≤ j) :
    (v :: rest).getD (j - i0) 0 = rest.getD (j - (i0 + 1)) 0 := by
  have hj : j - i0 = (j - (i0 + 1)) + 1 := by omega
  rw [hj, List.getD_cons_succ]

/-- Coverage of the runs produced by the `encodeMaskToRLE` scan, for both
scan states (`none` = not in a run, `some s` = inside a run that started
at `s`). -/
theorem coveredBy_encodeAux (M : List ℕ) : ∀ (i0 j : ℕ),
    (CoveredBy (encodeAux M i0 none) j ↔
      i0 ≤ j ∧ j - i0 < M.length ∧ M.getD (j - i0) 0 > 0) ∧
    (∀ s, s ≤ i0 →
      (CoveredBy (encodeAux M i0 (some s)) j ↔
        (s ≤ j ∧ j < i0) ∨
          (i0 ≤ j ∧ j - i0 < M.length ∧ M.getD (j - i0) 0 > 0))) := by
  induction M with
  | nil =>
    intro i0 j
    constructor
    · simp [encodeAux, CoveredBy]
    · intro s hs
      simp only [encodeAux, CoveredBy, List.mem_singleton, List.length_nil]
      constructor
      · rintro ⟨p, rfl, h1, h2⟩
        exact Or.inl ⟨h1, by omega⟩
      · rintro (⟨h1, h2⟩ | ⟨_, h2, _⟩)
        · exact ⟨(s, i0 - s), rfl, h1, by omega⟩
        · omega
  | cons v rest ih =>
    intro i0 j
    constructor
    · by_cases hv : v > 0
      · rw [show encodeAux (v :: rest) i0 none = encodeAux rest (i0 + 1) (some i0)
            from by simp [encodeAux, hv]]
        rw [(ih (i0 + 1) j).2 i0 (Nat.le_succ i0)]
        simp only [List.length_cons]
        constructor
        · rintro (⟨h1, h2⟩ | ⟨h1, h2, h3⟩)
          · have hj : j = i0 := by omega
            subst hj
            refine ⟨le_refl _, by omega, ?_⟩
            rw [Nat.sub_self, List.getD_cons_zero]
            exact hv
          · refine ⟨by omega, by omega, ?_⟩
            rw [getD_cons_shift v rest i0 j h1]
            exact h3
        · rintro ⟨h1, h2, h3⟩
          rcases eq_or_ne j i0 with rfl | hne
          · exact Or.inl ⟨le_refl _, by omega⟩
          · right
            refine ⟨by omega, by omega, ?_⟩
            rw [getD_cons_shift v rest i0 j (by omega)] at h3
            exact h3
      · rw [show encodeAux (v :: rest) i0 none = encodeAux rest (i0 + 1) none
            from by simp [encodeAux, hv]]
        rw [(ih (i0 + 1) j).1]
        simp only [List.length_cons]
        constructor
        · rintro ⟨h1, h2, h3⟩
          refine ⟨by omega, by omega, ?_⟩
          rw [getD_cons_shift v rest i0 j h1]
          exact h3
        · rintro ⟨h1, h2, h3⟩
          rcases eq_or_ne j i0 with rfl | hne
          · rw [Nat.sub_self, List.getD_cons_zero] at h3
            omega
          · refine ⟨by omega, by omega, ?_⟩
            rw [getD_cons_shift v rest i0 j (by omega)] at h3
            exact h3
    · intro s hs
      by_cases hv : v > 0
      · rw [show encodeAux (v :: rest) i0 (some s) = encodeAux rest (i0 + 1) (some s)
            from by simp [encodeAux, hv]]
        rw [(ih (i0 + 1) j).2 s (by omega)]
        simp only [List.length_cons]
        constructor
        · rintro (⟨h1, h2⟩ | ⟨h1, h2, h3⟩)
          · rcases eq_or_ne j i0 with rfl | hne
            · refine Or.inr ⟨le_refl _, by omega, ?_⟩
              rw [Nat.sub_self, List.getD_cons_zero]
              exact hv
            · exact Or.inl ⟨h1, by omega⟩
          · refine Or.inr ⟨by omega, by omega, ?_⟩
            rw [getD_cons_shift v rest i0 j h1]
            exact h3
        · rintro (⟨h1, h2⟩ | ⟨h1, h2, h3⟩)
          · exact Or.inl ⟨h1, by omega⟩
          · rcases eq_or_ne j i0 with rfl | hne
            · exact Or.inl ⟨hs, by omega⟩
            · refine Or.inr ⟨by omega, by omega, ?_⟩
              rw [getD_cons_shift v rest i0 j (by omega)] at h3
              exact h3
      · rw [show encodeAux (v :: rest) i0 (some s)
              = (s, i0 - s) :: encodeAux rest (i0 + 1) none
            from by simp [encodeAux, hv]]
        rw [coveredBy_cons, (ih (i0 + 1) j).1]
        simp only [List.length_cons]
        constructor
        · rintro (⟨h1, h2⟩ | ⟨h1, h2, h3⟩)
          · exact Or.inl ⟨h1, by omega⟩
          · refine Or.inr ⟨by omega, by omega, ?_⟩
            rw [getD_cons_shift v rest i0 j h1]
            exact h3
        · rintro (⟨h1, h2⟩ | ⟨h1, h2, h3⟩)
          · exact Or.inl ⟨h1, by omega⟩
          · rcases eq_or_ne j i0 with rfl | hne
            · rw [Nat.sub_self, List.getD_cons_zero] at h3
              omega
            · refine Or.inr ⟨by omega, by omega, ?_⟩
              rw [getD_cons_shift v rest i0 j (by omega)] at h3
              exact h3

/-- Coverage of `encodeMaskToRLE M`: exactly the positions of `M` holding a
positive value. -/
theorem coveredBy_encodeMaskToRLE (M : List ℕ) (j : ℕ) :
    CoveredBy (encodeMaskToRLE M) j ↔ j < M.length ∧ M.getD j 0 > 0 := by
  unfold encodeMaskToRLE
  rw [(coveredBy_encodeAux M 0 j).1]
  simp only [Nat.sub_zero]
  omega

/-- Decode-encode roundtrip on binary masks (helper shared by several
claims). -/
theorem decode_encode_roundtrip (M : List ℕ) (hbin : ∀ v ∈ M, v = 0 ∨ v = 1) :
    decodeMaskFromRLE (encodeMaskToRLE M) M.length = M := by
  apply List.ext_getElem?
  intro j
  rw [getElem?_decodeMaskFromRLE]
  by_cases hj : j < M.length
  · rw [if_pos hj, List.getElem?_eq_getElem hj]
    have hmem : M[j] ∈ M := List.getElem_mem hj
    have hgetD : M.getD j 0 = M[j] := by
      rw [List.getD_eq_getElem?_getD, List.getElem?_eq_getElem hj]
      rfl
    rcases hbin _ hmem with h0 | h1
    · rw [if_neg, h0]
      rw [coveredBy_encodeMaskToRLE, hgetD, h0]
      omega
    · rw [if_pos, h1]
      rw [coveredBy_encodeMaskToRLE, hgetD, h1]
      omega
  · rw [if_neg hj, eq_comm, List.getElem?_eq_none]
    omega

/-- C2: decoding the RLE encoding of a binary mask at the original length
reproduces the mask exactly:
`decodeMaskFromRLE (encodeMaskToRLE M) M.length = M` whenever every entry
of `M` is `0` or `1`. -/
theorem claim_C2_rle_roundtrip (M : List ℕ) (hbin : ∀ v ∈ M, v = 0 ∨ v = 1) :
    decodeMaskFromRLE (encodeMaskToRLE M) M.length = M :=
  decode_encode_roundtrip M hbin

/-- Witness for C2 at the concrete binary mask `[1, 0, 1, 1, 0]`. -/
theorem claim_C2_rle_roundtrip_witness :
    (∀ v ∈ [1, 0, 1, 1, 0], v = 0 ∨ v = 1) ∧
      decodeMaskFromRLE (encodeMaskToRLE [1, 0, 1, 1, 0])
        ([1, 0, 1, 1, 0] : List ℕ).length = [1, 0, 1, 1, 0] :=
  ⟨by decide, claim_C2_rle_roundtrip [1, 0, 1, 1, 0] (by decide)⟩

/-! ### `mergeRLEMasks` -/

/-- The in-place OR loop of `mergeRLEMasks`
(`for i in [0, maskSize): mask1[i] = mask1[i] | mask2[i]`). -/
def orMasks (mask1 mask2 : List ℕ) (maskSize : ℕ) : List ℕ :=
  (List.range maskSize).foldl
    (fun m i => m.set i (Nat.lor (m.getD i 0) (mask2.getD i 0))) mask1

/-- `mergeRLEMasks` of `maskUtils.ts`: decode both masks, OR them
element-wise (in place on the first), and re-encode. -/
def mergeRLEMasks (rle1 rle2 : List (ℕ × ℕ)) (maskSize : ℕ) : List (ℕ × ℕ) :=
  encodeMaskToRLE
    (orMasks (decodeMaskFromRLE rle1 maskSize) (decodeMaskFromRLE rle2 maskSize)
      maskSize)

theorem getElem?_orFold (mask2 : List ℕ) (k : ℕ) : ∀ (a : ℕ) (m : List ℕ) (j : ℕ),
    ((List.range' a k).foldl
        (fun m i => m.set i (Nat.lor (m.getD i 0) (mask2.getD i 0))) m)[j]? =
      if a ≤ j ∧ j < a + k ∧ j < m.length
      then some (Nat.lor (m.getD j 0) (mask2.getD j 0))
      else m[j]? := by
  induction k with
  | zero =>
    intro a m j
    simp only [List.range'_zero, List.foldl_nil]
    rw [if_neg (by omega : ¬(a ≤ j ∧ j < a + 0 ∧ j < m.length))]
  | succ k ih =>
    intro a m j
    rw [List.range'_succ, List.foldl_cons, ih, List.length_set]
    rcases eq_or_ne j a with rfl | hne
    · rw [if_neg (by omega : ¬(j + 1 ≤ j ∧ j < j + 1 + k ∧ j < m.length))]
      by_cases hlt : j < m.length
      · rw [List.getElem?_set_eq_of_lt _ hlt, if_pos ⟨le_refl j, by omega, hlt⟩]
      · rw [if_neg (by omega : ¬(j ≤ j ∧ j < j + (k + 1) ∧ j < m.length)),
          List.set_eq_of_length_le (by omega)]
    · have hD : (m.set a (Nat.lor (m.getD a 0) (mask2.getD a 0))).getD j 0
          = m.getD j 0 := by
        rw [List.getD_eq_getElem?_getD, List.getElem?_set_ne (Ne.symm hne),
          ← List.getD_eq_getElem?_getD]
      rw [hD, List.getElem?_set_ne (Ne.symm hne)]
      by_cases h2 : a + 1 ≤ j ∧ j < a + 1 + k ∧ j < m.length
      · rw [if_pos h2, if_pos (by omega)]
      · rw [if_neg h2, if_neg (by omega)]

theorem getElem?_orMasks (mask1 mask2 : List ℕ) (n : ℕ) (hm : mask1.length = n)
    (j : ℕ) :
    (orMasks mask1 mask2 n)[j]? =
      if j < n then some (Nat.lor (mask1.getD j 0) (mask2.getD j 0)) else none := by
  unfold orMasks
  rw [List.range_eq_range', getElem?_orFold]
  by_cases hj : j < n
  · rw [if_pos (by omega), if_pos hj]
  · rw [if_neg (by omega), if_neg hj, List.getElem?_eq_none]
    omega

/-- C8 commutativity half (helper): merge is commutative. -/
theorem mergeRLEMasks_comm_aux (a b : List (ℕ × ℕ)) (n : ℕ) :
    mergeRLEMasks a b n = mergeRLEMasks b a n := by
  unfold mergeRLEMasks
  congr 1
  apply List.ext_getElem?
  intro j
  rw [getElem?_orMasks _ _ _ (length_decodeMaskFromRLE a n),
    getElem?_orMasks _ _ _ (length_decodeMaskFromRLE b n)]
  by_cases hj : j < n
  · rw [if_pos hj, if_pos hj]
    exact congrArg some (Nat.lor_comm _ _)
  · rw [if_neg hj, if_neg hj]

/-! ### Canonical RLE masks and uniqueness of the canonical form -/

/-- The data-model invariant of an RLE mask (spec section 3): positive run
lengths, sorted by start, non-overlapping and non-adjacent (each later run
starts strictly after `start + length`). -/
def canonicalRLE : List (ℕ × ℕ) → Bool
  | [] => true
  | (s, l) :: rest =>
      decide (0 < l) && rest.all (fun q => decide (s + l < q.1)) && canonicalRLE rest

/-- All runs of the RLE mask lie inside `[0, n)`. -/
def runsWithin (rle : List (ℕ × ℕ)) (n : ℕ) : Bool :=
  rle.all (fun p => decide (p.1 + p.2 ≤ n))

theorem canonicalRLE_cons {s l : ℕ} {rest : List (ℕ × ℕ)}
    (h : canonicalRLE ((s, l) :: rest) = true) :
    0 < l ∧ (∀ q ∈ rest, s + l < q.1) ∧ canonicalRLE rest = true := by
  simp only [canonicalRLE, Bool.and_eq_true, decide_eq_true_eq, List.all_eq_true] at h
  exact ⟨h.1.1, h.1.2, h.2⟩

theorem coveredBy_ge_of_canonical {s l : ℕ} {rest : List (ℕ × ℕ)} {j : ℕ}
    (h : canonicalRLE ((s, l) :: rest) = true)
    (hc : CoveredBy ((s, l) :: rest) j) : s ≤ j := by
  obtain ⟨_, hgap, _⟩ := canonicalRLE_cons h
  rcases (coveredBy_cons _ _ _).mp hc with ⟨h1, _⟩ | ⟨q, hq, h1, _⟩
  · exact h1
  · have := hgap q hq
    omega

theorem coveredBy_head_start {s l : ℕ} {rest : List (ℕ × ℕ)}
    (hl : 0 < l) : CoveredBy ((s, l) :: rest) s :=
  ⟨(s, l), List.mem_cons_self _ _, le_refl s, by omega⟩

theorem coveredBy_head_mem {s l k : ℕ} {rest : List (ℕ × ℕ)}
    (hk : k < l) : CoveredBy ((s, l) :: rest) (s + k) :=
  ⟨(s, l), List.mem_cons_self _ _, by omega, by omega⟩

theorem not_coveredBy_end_of_canonical {s l : ℕ} {rest : List (ℕ × ℕ)}
    (h : canonicalRLE ((s, l) :: rest) = true) :
    ¬CoveredBy ((s, l) :: rest) (s + l) := by
  obtain ⟨_, hgap, _⟩ := canonicalRLE_cons h
  intro hc
  rcases (coveredBy_cons _ _ _).mp hc with ⟨_, h2⟩ | ⟨q, hq, h1, _⟩
  · omega
  · have := hgap q hq
    omega

/-- Two canonical RLE masks with the same coverage are equal. -/
theorem canonicalRLE_coverage_unique :
    ∀ (L1 L2 : List (ℕ × ℕ)), canonicalRLE L1 = true → canonicalRLE L2 = true →
      (∀ j, CoveredBy L1 j ↔ CoveredBy L2 j) → L1 = L2 := by
  intro L1
  induction L1 with
  | nil =>
    intro L2 _ h2 hcov
    cases L2 with
    | nil => rfl
    | cons p r2 =>
      exfalso
      obtain ⟨hl, _, _⟩ := canonicalRLE_cons (s := p.1) (l := p.2) (by simpa using h2)
      have hc : CoveredBy (p :: r2) p.1 := ⟨p, List.mem_cons_self _ _, le_refl _, by omega⟩
      have := (hcov p.1).mpr hc
      simp [CoveredBy] at this
  | cons p r1 ih =>
    intro L2 h1 h2 hcov
    obtain ⟨s1, l1⟩ := p
    cases L2 with
    | nil =>
      exfalso
      obtain ⟨hl, _, _⟩ := canonicalRLE_cons h1
      have := (hcov s1).mp (coveredBy_head_start hl)
      simp [CoveredBy] at this
    | cons q r2 =>
      obtain ⟨s2, l2⟩ := q
      obtain ⟨hl1, hgap1, hc1⟩ := canonicalRLE_cons h1
      obtain ⟨hl2, hgap2, hc2⟩ := canonicalRLE_cons h2
      have hs : s1 = s2 := by
        have ha := coveredBy_ge_of_canonical h2 ((hcov s1).mp (coveredBy_head_start hl1))
        have hb := coveredBy_ge_of_canonical h1 ((hcov s2).mpr (coveredBy_head_start hl2))
        omega
      subst hs
      have hll : l1 = l2 := by
        rcases Nat.lt_trichotomy l1 l2 with hlt | heq | hgt
        · exfalso
          exact not_coveredBy_end_of_canonical h1
            ((hcov (s1 + l1)).mpr (coveredBy_head_mem hlt))
        · exact heq
        · exfalso
          exact not_coveredBy_end_of_canonical h2
            ((hcov (s1 + l2)).mp (coveredBy_head_mem hgt))
      subst hll
      have htails : ∀ j, CoveredBy r1 j ↔ CoveredBy r2 j := by
        intro j
        constructor
        · intro hr1
          obtain ⟨q1, hq1, hj1, hj2⟩ := hr1
          have hjgt : s1 + l1 < j := by
            have := hgap1 q1 hq1
            omega
          have : CoveredBy ((s1, l1) :: r2) j :=
            (hcov j).mp ((coveredBy_cons _ _ _).mpr (Or.inr ⟨q1, hq1, hj1, hj2⟩))
          rcases (coveredBy_cons _ _ _).mp this with ⟨_, hend⟩ | hr2
          · omega
          · exact hr2
        · intro hr2
          obtain ⟨q2, hq2, hj1, hj2⟩ := hr2
          have hjgt : s1 + l1 < j := by
            have := hgap2 q2 hq2
            omega
          have : CoveredBy ((s1, l1) :: r1) j :=
            (hcov j).mpr ((coveredBy_cons _ _ _).mpr (Or.inr ⟨q2, hq2, hj1, hj2⟩))
          rcases (coveredBy_cons _ _ _).mp this with ⟨_, hend⟩ | hr1
          · omega
          · exact hr1
      rw [ih r2 hc1 hc2 htails]

/-- The runs emitted by the `encodeMaskToRLE` scan are canonical; the scan
state `some s` (with `s < i0`) always emits a first run starting at `s` that
extends at least to `i0`, with every later run starting strictly beyond it. -/
theorem canonicalRLE_encodeAux (M : List ℕ) : ∀ i0 : ℕ,
    (canonicalRLE (encodeAux M i0 none) = true ∧
      ∀ q ∈ encodeAux M i0 none, i0 ≤ q.1) ∧
    (∀ s, s < i0 →
      canonicalRLE (encodeAux M i0 (some s)) = true ∧
      ∃ hd tl, encodeAux M i0 (some s) = (s, hd) :: tl ∧ i0 ≤ s + hd ∧
        ∀ q ∈ tl, s + hd < q.1) := by
  induction M with
  | nil =>
    intro i0
    refine ⟨⟨rfl, by simp [encodeAux]⟩, ?_⟩
    intro s hs
    refine ⟨?_, i0 - s, [], rfl, by omega, by simp⟩
    simp [encodeAux, canonicalRLE]
    omega
  | cons v rest ih =>
    intro i0
    constructor
    · by_cases hv : v > 0
      · rw [show encodeAux (v :: rest) i0 none = encodeAux rest (i0 + 1) (some i0)
            from by simp [encodeAux, hv]]
        obtain ⟨hcan, hd, tl, heq, hge, htl⟩ := (ih (i0 + 1)).2 i0 (by omega)
        refine ⟨hcan, ?_⟩
        intro q hq
        rw [heq] at hq
        rcases List.mem_cons.mp hq with rfl | hq
        · exact le_refl _
        · have := htl q hq
          omega
      · rw [show encodeAux (v :: rest) i0 none = encodeAux rest (i0 + 1) none
            from by simp [encodeAux, hv]]
        obtain ⟨hcan, hge⟩ := (ih (i0 + 1)).1
        exact ⟨hcan, fun q hq => by have := hge q hq; omega⟩
    · intro s hs
      by_cases hv : v > 0
      · rw [show encodeAux (v :: rest) i0 (some s) = encodeAux rest (i0 + 1) (some s)
            from by simp [encodeAux, hv]]
        obtain ⟨hcan, hd, tl, heq, hge, htl⟩ := (ih (i0 + 1)).2 s (by omega)
        exact ⟨hcan, hd, tl, heq, by omega, htl⟩
      · rw [show encodeAux (v :: rest) i0 (some s)
              = (s, i0 - s) :: encodeAux rest (i0 + 1) none
            from by simp [encodeAux, hv]]
        obtain ⟨hcan, hge⟩ := (ih (i0 + 1)).1
        have hall : ∀ q ∈ encodeAux rest (i0 + 1) none, s + (i0 - s) < q.1 := by
          intro q hq
          have := hge q hq
          omega
        refine ⟨?_, i0 - s, encodeAux rest (i0 + 1) none, rfl, by omega, hall⟩
        simp only [canonicalRLE, Bool.and_eq_true, decide_eq_true_eq, List.all_eq_true]
        exact ⟨⟨by omega, fun q hq => hall q hq⟩, hcan⟩

theorem canonicalRLE_encodeMaskToRLE (M : List ℕ) :
    canonicalRLE (encodeMaskToRLE M) = true :=
  ((canonicalRLE_encodeAux M 0).1).1

/-- C8 idempotence half (helper): merging a canonical, in-range RLE mask
with itself gives it back. -/
theorem mergeRLEMasks_self_aux (a : List (ℕ × ℕ)) (n : ℕ)
    (hc : canonicalRLE a = true) (hw : runsWithin a n = true) :
    mergeRLEMasks a a n = a := by
  unfold mergeRLEMasks
  have hlen := length_decodeMaskFromRLE a n
  have hor : orMasks (decodeMaskFromRLE a n) (decodeMaskFromRLE a n) n
      = decodeMaskFromRLE a n := by
    apply List.ext_getElem?
    intro j
    rw [getElem?_orMasks _ _ _ hlen]
    by_cases hj : j < n
    · have hx : Nat.lor ((decodeMaskFromRLE a n).getD j 0)
          ((decodeMaskFromRLE a n).getD j 0) = (decodeMaskFromRLE a n).getD j 0 :=
        Nat.or_self _
      rw [if_pos hj, hx, List.getD_eq_getElem?_getD,
        List.getElem?_eq_getElem (by omega : j < (decodeMaskFromRLE a n).length)]
      rfl
    · rw [if_neg hj, eq_comm, List.getElem?_eq_none]
      omega
  rw [hor]
  apply canonicalRLE_coverage_unique _ _ (canonicalRLE_encodeMaskToRLE _) hc
  intro j
  rw [coveredBy_encodeMaskToRLE, hlen]
  have hD : (decodeMaskFromRLE a n).getD j 0
      = ((decodeMaskFromRLE a n)[j]?).getD 0 := List.getD_eq_getElem?_getD _ _ _
  rw [hD, getElem?_decodeMaskFromRLE]
  simp only [runsWithin, List.all_eq_true, decide_eq_true_eq] at hw
  constructor
  · rintro ⟨hj, hpos⟩
    rw [if_pos hj] at hpos
    by_cases hcov : CoveredBy a j
    · exact hcov
    · rw [if_neg hcov] at hpos
      simp at hpos
  · intro hcov
    obtain ⟨p, hp, h1, h2⟩ := hcov
    have hj : j < n := by
      have := hw p hp
      omega
    rw [if_pos hj, if_pos ⟨p, hp, h1, h2⟩]
    exact ⟨hj, by norm_num⟩

/-- C8 counterexample: as stated over *all* RLE masks the claim is false —
`merge(a, a, size) = a` fails for the adjacent-run mask `[(0,1), (1,1)]`
(decode-OR-encode normalises it to the single run `[(0,2)]`). -/
theorem claim_C8_counterexample :
    mergeRLEMasks [(0, 1), (1, 1)] [(0, 1), (1, 1)] 2 ≠ [(0, 1), (1, 1)] := by
  decide

/-- C8 (amended): `mergeRLEMasks` is commutative for all RLE masks and
sizes; it is idempotent (`merge(a, a, size) = a`) for every mask satisfying
the spec's RLE data-model invariant (positive, sorted, non-overlapping,
non-adjacent runs) whose runs lie within the mask size. -/
theorem claim_C8_merge_comm_idem :
    (∀ (a b : List (ℕ × ℕ)) (n : ℕ), mergeRLEMasks a b n = mergeRLEMasks b a n) ∧
    (∀ (a : List (ℕ × ℕ)) (n : ℕ), canonicalRLE a = true → runsWithin a n = true →
      mergeRLEMasks a a n = a) :=
  ⟨mergeRLEMasks_comm_aux, mergeRLEMasks_self_aux⟩

/-- Witness for the amended C8 at concrete masks. -/
theorem claim_C8_merge_comm_idem_witness :
    mergeRLEMasks [(1, 2), (5, 1)] [(0, 1)] 6 = mergeRLEMasks [(0, 1)] [(1, 2), (5, 1)] 6 ∧
      mergeRLEMasks [(1, 2), (5, 1)] [(1, 2), (5, 1)] 6 = [(1, 2), (5, 1)] :=
  ⟨claim_C8_merge_comm_idem.1 [(1, 2), (5, 1)] [(0, 1)] 6,
    claim_C8_merge_comm_idem.2 [(1, 2), (5, 1)] 6 (by decide) (by decide)⟩

/-! ## Image buffers -/

/-- An `ImageData` buffer: `width`, `height` and a flat RGBA byte list of
exactly `4 * width * height` entries — the invariant the browser's
`ImageData` type enforces on every buffer the worker can receive. -/
structure ImageData where
  width : ℕ
  height : ℕ
  data : List ℕ
  hdata : data.length = 4 * (width * height)

/-- In-range byte read `data[i]` (used where the source's reads are in
range by construction). -/
def dataByte (img : ImageData) (i : ℕ) : ℕ := img.data.getD i 0

/-! ## `detectDominantColor` -/

/-- One corner sample `{r, g, b}` at pixel `(x, y)`
(`idx = (y * width + x) * 4`). -/
def sampleAt (img : ImageData) (x y : ℕ) : ℕ × ℕ × ℕ :=
  ((dataByte img ((y * img.width + x) * 4)),
    (dataByte img ((y * img.width + x) * 4 + 1)),
    (dataByte img ((y * img.width + x) * 4 + 2)))

/-- The corner-block samples of `detectDominantColor`, in the source's push
order: top-left, top-right, bottom-left, bottom-right. -/
def cornerSamples (img : ImageData) : List (ℕ × ℕ × ℕ) :=
  let w := img.width
  let h := img.height
  let sampleSize := min 20 (min w h / 10)
  ((List.range sampleSize).flatMap fun y =>
    (List.range sampleSize).map fun x => sampleAt img x y) ++
  ((List.range sampleSize).flatMap fun y =>
    (List.range' (w - sampleSize) sampleSize 1).map fun x => sampleAt img x y) ++
  ((List.range' (h - sampleSize) sampleSize 1).flatMap fun y =>
    (List.range sampleSize).map fun x => sampleAt img x y) ++
  ((List.range' (h - sampleSize) sampleSize 1).flatMap fun y =>
    (List.range' (w - sampleSize) sampleSize 1).map fun x => sampleAt img x y)

/-- The `colorMap` update of `detectDominantColor`, with JS `Map` insertion
order: an existing key's count and channel sums are updated in place, a new
key is appended at the end. -/
def colorMapAdd (m : List ((ℕ × ℕ × ℕ) × (ℕ × ℕ × ℕ × ℕ)))
    (key : ℕ × ℕ × ℕ) (s : ℕ × ℕ × ℕ) : List ((ℕ × ℕ × ℕ) × (ℕ × ℕ × ℕ × ℕ)) :=
  match m with
  | [] => [(key, (1, s.1, s.2.1, s.2.2))]
  | (k, (c, sr, sg, sb)) :: rest =>
      if k = key then (k, (c + 1, sr + s.1, sg + s.2.1, sb + s.2.2)) :: rest
      else (k, (c, sr, sg, sb)) :: colorMapAdd rest key s

/-- The quantised color-frequency map of `detectDominantColor`
(quantisation `Math.floor(c / 8) * 8` per channel). -/
def buildColorMap (samples : List (ℕ × ℕ × ℕ)) :
    List ((ℕ × ℕ × ℕ) × (ℕ × ℕ × ℕ × ℕ)) :=
  samples.foldl
    (fun m s => colorMapAdd m (s.1 / 8 * 8, s.2.1 / 8 * 8, s.2.2 / 8 * 8) s) []

/-- The most-frequent-bucket fold of `detectDominantColor` (strict `>`:
the first maximal bucket in insertion order wins); yields the rounded
average color of that bucket, defaulting to white. -/
def dominantFromMap (m : List ((ℕ × ℕ × ℕ) × (ℕ × ℕ × ℕ × ℕ))) : ℕ × ℕ × ℕ :=
  (m.foldl
    (fun acc e =>
      if e.2.1 > acc.1 then
        (e.2.1, ((jsRound ((e.2.2.1 : ℚ) / (e.2.1 : ℚ))).toNat,
          (jsRound ((e.2.2.2.1 : ℚ) / (e.2.1 : ℚ))).toNat,
          (jsRound ((e.2.2.2.2 : ℚ) / (e.2.1 : ℚ))).toNat))
      else acc)
    (0, (255, 255, 255))).2

/-- `detectDominantColor` of the worker. -/
def detectDominantColor (img : ImageData) : ℕ × ℕ × ℕ :=
  dominantFromMap (buildColorMap (cornerSamples img))

/-! ## `calculateAutoThreshold` -/

/-- Squared color distance of the pixel at flat index `i` to the color `c`. -/
def distSqToColor (img : ImageData) (i : ℕ) (c : ℕ × ℕ × ℕ) : ℤ :=
  colorDistanceSquared (dataByte img (i * 4)) (dataByte img (i * 4 + 1))
    (dataByte img (i * 4 + 2)) c.1 c.2.1 c.2.2

/-- Histogram bin of a squared distance `d`:
`Math.min(Math.floor((Math.sqrt(d) / 442) * 255), 255)`, computed exactly —
`⌊255·√d/442⌋ = ⌊⌊√(65025·d)⌋/442⌋ = Nat.sqrt (65025 * d) / 442`. -/
def binIndexOfDistSq (d : ℕ) : ℕ :=
  min (Nat.sqrt (65025 * d) / 442) 255

/-- The sampling loop of `calculateAutoThreshold`
(`for (i = 0; i < totalPixels; i += 4)`): the 256-bin histogram together
with the sampled-pixel count. -/
def buildHistogram (img : ImageData) (dom : ℕ × ℕ × ℕ) : List ℕ × ℕ :=
  let totalPixels := img.data.length / 4
  (List.range' 0 ((totalPixels + 3) / 4) 4).foldl
    (fun acc i =>
      let bin := binIndexOfDistSq (distSqToColor img i dom).toNat
      (acc.1.set bin (acc.1.getD bin 0 + 1), acc.2 + 1))
    (List.replicate 256 0, 0)

/-- The Otsu search loop of `calculateAutoThreshold`.  State
`(sumBackground, weightBackground, maxVariance, optimalBin)`; `continue`
while the background weight is zero, `break` (returning the state and
discarding the remaining bins) when the foreground weight reaches zero. -/
def otsuLoop (hist : List ℕ) (sampled sumTotal : ℕ) :
    List ℕ → ℕ × ℕ × ℚ × ℕ → ℕ × ℕ × ℚ × ℕ
  | [], st => st
  | t :: ts, (sumB, wB, maxVar, optBin) =>
      let wB' := wB + hist.getD t 0
      if wB' = 0 then otsuLoop hist sampled sumTotal ts (sumB, wB', maxVar, optBin)
      else
        let wF := sampled - wB'
        if wF = 0 then (sumB, wB', maxVar, optBin)
        else
          let sumB' := sumB + t * hist.getD t 0
          let meanB : ℚ := (sumB' : ℚ) / (wB' : ℚ)
          let meanF : ℚ := ((sumTotal : ℚ) - (sumB' : ℚ)) / (wF : ℚ)
          let variance : ℚ := (wB' : ℚ) * (wF : ℚ) * (meanB - meanF) ^ 2
          if variance > maxVar then
            otsuLoop hist sampled sumTotal ts (sumB', wB', variance, t)
          else otsuLoop hist sampled sumTotal ts (sumB', wB', maxVar, optBin)

/-- `calculateAutoThreshold` of the worker: Otsu's method over a 256-bin
histogram of distances to the dominant color; the optimal bin is converted
back to a distance value and clamped to `[20, 150]`.  Returns
`(threshold, dominantColor)`. -/
def calculateAutoThreshold (img : ImageData) : ℚ × (ℕ × ℕ × ℕ) :=
  let dominantColor := detectDominantColor img
  let hs := buildHistogram img dominantColor
  let sumTotal := (List.range 256).foldl (fun acc i => acc + i * hs.1.getD i 0) 0
  let st := otsuLoop hs.1 hs.2 sumTotal (List.range 256) (0, 0, 0, 0)
  let threshold : ℚ := (st.2.2.2 : ℚ) / 255 * 442
  (max 20 (min threshold 150), dominantColor)

/-- C3: for every image buffer of positive size, the threshold returned by
`calculateAutoThreshold` lies in the closed interval `[20, 150]`. -/
theorem claim_C3_autoThreshold_bounds (img : ImageData)
    (hpos : 0 < img.width * img.height) :
    20 ≤ (calculateAutoThreshold img).1 ∧ (calculateAutoThreshold img).1 ≤ 150 := by
  have h : ∀ q : ℚ, 20 ≤ max 20 (min q 150) ∧ max 20 (min q 150) ≤ 150 :=
    fun q => ⟨le_max_left _ _, max_le (by norm_num) (min_le_right _ _)⟩
  exact h _

/-- The concrete 1-by-1 white buffer used as the C3 witness input. -/
def whitePixelImage : ImageData := ⟨1, 1, [255, 255, 255, 255], rfl⟩

/-- Witness for C3 at a concrete 1-by-1 buffer. -/
theorem claim_C3_autoThreshold_bounds_witness :
    0 < whitePixelImage.width * whitePixelImage.height ∧
      20 ≤ (calculateAutoThreshold whitePixelImage).1 ∧
      (calculateAutoThreshold whitePixelImage).1 ≤ 150 :=
  ⟨by decide, claim_C3_autoThreshold_bounds whitePixelImage (by decide)⟩

/-! ## `magicSelect` (flood fill) -/

/-- RGB read at flat pixel index `flat` (`idx = flat << 2`); `none` when the
read falls outside the buffer — JS yields `undefined`/`NaN` there and every
arithmetic comparison involving it is false. -/
def readRGB (img : ImageData) (flat : ℕ) : Option (ℕ × ℕ × ℕ) :=
  match img.data[4 * flat]?, img.data[4 * flat + 1]?, img.data[4 * flat + 2]? with
  | some r, some g, some b => some (r, g, b)
  | _, _, _ => none

/-- The `bounds` record of a `MagicRegion`. -/
structure Bounds where
  x : ℕ
  y : ℕ
  width : ℕ
  height : ℕ
deriving DecidableEq, Repr

/-- `'keep' | 'remove'`. -/
inductive RegionMode
  | keep
  | remove
deriving DecidableEq, Repr

/-- A `MagicRegion` (the `id` field — `crypto.randomUUID()` — is an opaque
nondeterministic token and is not modelled).  `averageColor` is `none`
exactly when the source would produce `NaN` components (empty selection with
an unreadable seed pixel). -/
structure MagicRegion where
  maskRLE : List (ℕ × ℕ)
  bounds : Bounds
  pixelCount : ℕ
  averageColor : Option (ℕ × ℕ × ℕ)
  mode : RegionMode
deriving DecidableEq, Repr

/-- Flood-fill loop state of `magicSelect`: `visited` and `selected` are the
sets of flat indices marked `1` in the corresponding `Uint8Array`s, the
bounds and color accumulators mirror the local variables, and `stack` holds
the pending `(x, y)` pairs with the top at the head (JS pushes `x, y` at the
array end and pops `y` then `x`). -/
structure FloodState where
  visited : Finset ℕ
  selected : Finset ℕ
  minX : ℕ
  maxX : ℕ
  minY : ℕ
  maxY : ℕ
  totalR : ℕ
  totalG : ℕ
  totalB : ℕ
  pixelCount : ℕ
  stack : List (ℕ × ℕ)

/-- `visited[nIdx] = 1`: an out-of-range typed-array write is dropped. -/
def markVisited (total : ℕ) (v : Finset ℕ) (i : ℕ) : Finset ℕ :=
  if i < total then insert i v else v

/-- The neighbor handling of the flood fill:
`if (!visited[nIdx]) { visited[nIdx] = 1; stack.push(nx, ny); }`
(an out-of-range `visited[nIdx]` reads `undefined`, so the guard passes). -/
def pushNeighbor (total : ℕ) (s : FloodState) (nIdx nx ny : ℕ) : FloodState :=
  if nIdx ∉ s.visited then
    { s with visited := markVisited total s.visited nIdx,
             stack := (nx, ny) :: s.stack }
  else s

/-- The accept branch of the loop body for pixel `(x, y)` with color
`(r, g, b)`: mark selected, update bounds and color accumulators, then push
the unvisited neighbors (left, right, up, down — JS pops in reverse
order). -/
def acceptPixel (img : ImageData) (x y r g b : ℕ) (s : FloodState) : FloodState :=
  let width := img.width
  let total := width * img.height
  let pixelIdx := y * width + x
  let s1 : FloodState := { s with
    selected := insert pixelIdx s.selected,
    pixelCount := s.pixelCount + 1,
    minX := min s.minX x, maxX := max s.maxX x,
    minY := min s.minY y, maxY := max s.maxY y,
    totalR := s.totalR + r, totalG := s.totalG + g, totalB := s.totalB + b }
  let s2 := if 0 < x then pushNeighbor total s1 (pixelIdx - 1) (x - 1) y else s1
  let s3 := if x < width - 1 then pushNeighbor total s2 (pixelIdx + 1) (x + 1) y
    else s2
  let s4 := if 0 < y then pushNeighbor total s3 (pixelIdx - width) x (y - 1) else s3
  let s5 := if y < img.height - 1 then
      pushNeighbor total s4 (pixelIdx + width) x (y + 1)
    else s4
  s5

/-- One iteration body of the `while (stack.length > 0)` loop for popped
coordinates `(x, y)` (the remaining stack is already in `s.stack`).

The source compares `distSq <= (tolerance * 4.42)²`; with `4.42 = 221/50`
this is exactly `2500·distSq ≤ 48841·tolerance²` (both sides scaled by
`2500 = 50²`, see `floodTest_iff`), which is how the test is written here so
that it stays in integer arithmetic.  An out-of-range pixel read
(`readRGB = none`) or an unreadable seed makes the comparison a `NaN`
comparison in JS, which is false: the pixel is rejected. -/
def floodVisit (img : ImageData) (seed : Option (ℕ × ℕ × ℕ)) (tolerance : ℕ)
    (x y : ℕ) (s : FloodState) : FloodState :=
  match readRGB img (y * img.width + x), seed with
  | some (r, g, b), some (sr, sg, sb) =>
    if 2500 * (colorDistanceSquared (r : ℤ) g b sr sg sb : ℤ)
        ≤ 48841 * (tolerance : ℤ) ^ 2 then
      acceptPixel img x y r g b s
    else s
  | _, _ => s

/-- The `while (stack.length > 0)` loop, fuel-indexed.  `floodFuel` below is
provably enough fuel for the loop to drain the stack (see
`floodLoop_stack_empty`), so with that fuel this equals the source's
unbounded loop. -/
def floodLoop (img : ImageData) (seed : Option (ℕ × ℕ × ℕ)) (tolerance : ℕ) :
    ℕ → FloodState → FloodState
  | 0, s => s
  | fuel + 1, s =>
    match s.stack with
    | [] => s
    | (x, y) :: rest =>
        floodLoop img seed tolerance fuel
          (floodVisit img seed tolerance x y { s with stack := rest })

/-- The state before the loop: the seed is marked visited
(`visited[startY * width + startX] = 1`, dropped when out of range) and
pushed on the stack; bounds start at the seed coordinates. -/
def floodInit (img : ImageData) (startX startY : ℕ) : FloodState :=
  { visited := markVisited (img.width * img.height) ∅ (startY * img.width + startX)
    selected := ∅
    minX := startX, maxX := startX, minY := startY, maxY := startY
    totalR := 0, totalG := 0, totalB := 0
    pixelCount := 0
    stack := [(startX, startY)] }

/-- Fuel that provably drains the stack: the termination measure of the
initial state is at most `3·(width·height) + 2`. -/
def floodFuel (img : ImageData) : ℕ := 3 * (img.width * img.height) + 2

/-- The bounds-relative mask built after the loop.  The source fills a zero
buffer of size `boundsWidth * boundsHeight` by iterating `y ∈ [minY, maxY]`,
`x ∈ [minX, maxX]` and setting index `(y − minY)·boundsWidth − minX + x`
when `selected[y·width + x]`; every relative index
`j = (y − minY)·boundsWidth + (x − minX)` is written exactly once, so the
mask is this tabulation. -/
def boundsMask (w : ℕ) (selected : Finset ℕ) (minX minY bw bh : ℕ) : List ℕ :=
  (List.range (bw * bh)).map fun j =>
    if (minY + j / bw) * w + (minX + j % bw) ∈ selected then 1 else 0

/-- The loop's final state inside `magicSelect` (the local `while` result,
named so that theorems can speak about it). -/
def magicFinal (img : ImageData) (startX startY tolerance : ℕ) : FloodState :=
  floodLoop img (readRGB img (startY * img.width + startX)) tolerance
    (floodFuel img) (floodInit img startX startY)

/-- `magicSelect` of the worker.  `tolerance` is the UI tolerance (an
integer in `[0, 100]`); the cutoff `toleranceThresholdSq = (tolerance·4.42)²`
lives inside the loop's integer comparison (see `floodVisit`). -/
def magicSelect (img : ImageData) (startX startY : ℕ) (tolerance : ℕ) :
    MagicRegion :=
  let width := img.width
  let seedRGB := readRGB img (startY * width + startX)
  let final := magicFinal img startX startY tolerance
  let boundsWidth := final.maxX - final.minX + 1
  let boundsHeight := final.maxY - final.minY + 1
  let mask := boundsMask width final.selected final.minX final.minY
    boundsWidth boundsHeight
  { maskRLE := encodeMaskToRLE mask
    bounds := ⟨final.minX, final.minY, boundsWidth, boundsHeight⟩
    pixelCount := final.pixelCount
    averageColor :=
      if final.pixelCount > 0 then
        some ((jsRound ((final.totalR : ℚ) / (final.pixelCount : ℚ))).toNat,
          (jsRound ((final.totalG : ℚ) / (final.pixelCount : ℚ))).toNat,
          (jsRound ((final.totalB : ℚ) / (final.pixelCount : ℚ))).toNat)
      else seedRGB
    mode := RegionMode.remove }

/-- The integer tolerance test of `floodVisit` is exactly the source's
`distSq <= (tolerance * 4.42)²` under exact arithmetic. -/
theorem floodTest_iff (d : ℤ) (t : ℕ) :
    (2500 * d ≤ 48841 * (t : ℤ) ^ 2) ↔
      ((d : ℚ) ≤ ((t : ℚ) * (221 / 50)) ^ 2) := by
  have h : ((t : ℚ) * (221 / 50)) ^ 2 = ((48841 * (t : ℤ) ^ 2 : ℤ) : ℚ) / 2500 := by
    push_cast
    ring
  rw [h, le_div_iff (by norm_num : (0 : ℚ) < 2500)]
  constructor
  · intro hle
    have : ((2500 * d : ℤ) : ℚ) ≤ ((48841 * (t : ℤ) ^ 2 : ℤ) : ℚ) := by
      exact_mod_cast hle
    push_cast at this ⊢
    linarith
  · intro hle
    have : ((2500 * d : ℤ) : ℚ) ≤ ((48841 * (t : ℤ) ^ 2 : ℤ) : ℚ) := by
      push_cast at hle ⊢
      linarith
    exact_mod_cast this

/-! ### Termination of the flood-fill loop -/

/-- The three RGB bytes of the pixel at flat index `flat`. -/
def pixelRGB (img : ImageData) (flat : ℕ) : ℕ × ℕ × ℕ :=
  (dataByte img (4 * flat), dataByte img (4 * flat + 1), dataByte img (4 * flat + 2))

theorem getElem?_eq_some_dataByte (img : ImageData) (i : ℕ)
    (h : i < img.data.length) : img.data[i]? = some (dataByte img i) := by
  rw [List.getElem?_eq_getElem h]
  unfold dataByte
  rw [List.getD_eq_getElem?_getD, List.getElem?_eq_getElem h]
  rfl

theorem readRGB_eq_some_of_lt (img : ImageData) (flat : ℕ)
    (h : flat < img.width * img.height) :
    readRGB img flat = some (pixelRGB img flat) := by
  have hlen := img.hdata
  rw [readRGB, getElem?_eq_some_dataByte img (4 * flat) (by omega),
    getElem?_eq_some_dataByte img (4 * flat + 1) (by omega),
    getElem?_eq_some_dataByte img (4 * flat + 2) (by omega)]
  rfl

theorem readRGB_flat_lt (img : ImageData) (flat : ℕ) (c : ℕ × ℕ × ℕ)
    (h : readRGB img flat = some c) : flat < img.width * img.height := by
  by_contra hge
  have hnone : img.data[4 * flat]? = none := by
    rw [List.getElem?_eq_none]
    rw [img.hdata]
    omega
  rw [readRGB, hnone] at h
  simp at h

/-- Weight of a pending stack entry: 2 when its flat index is a real pixel
(it may be accepted and push), 1 otherwise (it is popped once and rejected). -/
def entryWeight (w total : ℕ) (e : ℕ × ℕ) : ℕ :=
  if e.2 * w + e.1 < total then 2 else 1

theorem one_le_entryWeight (w total : ℕ) (e : ℕ × ℕ) :
    1 ≤ entryWeight w total e := by
  unfold entryWeight
  split <;> omega

/-- Termination measure of the flood-fill loop: weighted pending stack plus
three units per never-visited pixel. -/
def floodMeasure (img : ImageData) (s : FloodState) : ℕ :=
  (s.stack.map (entryWeight img.width (img.width * img.height))).sum +
    3 * ((Finset.range (img.width * img.height)) \ s.visited).card

theorem floodMeasure_pushNeighbor_le_of_lt (img : ImageData) (s : FloodState)
    (nIdx nx ny : ℕ) (hflat : ny * img.width + nx = nIdx)
    (hlt : nIdx < img.width * img.height) :
    floodMeasure img (pushNeighbor (img.width * img.height) s nIdx nx ny)
      ≤ floodMeasure img s := by
  unfold pushNeighbor
  split
  case isTrue h =>
    unfold floodMeasure markVisited
    rw [if_pos hlt]
    simp only [List.map_cons, List.sum_cons]
    have hw : entryWeight img.width (img.width * img.height) (nx, ny) = 2 := by
      unfold entryWeight
      simp only [hflat]
      rw [if_pos hlt]
    have hmem : nIdx ∈ Finset.range (img.width * img.height) \ s.visited := by
      rw [Finset.mem_sdiff, Finset.mem_range]
      exact ⟨hlt, h⟩
    have hcard : (Finset.range (img.width * img.height) \ insert nIdx s.visited).card + 1
        = (Finset.range (img.width * img.height) \ s.visited).card := by
      rw [Finset.sdiff_insert, Finset.card_erase_of_mem hmem]
      have : 0 < (Finset.range (img.width * img.height) \ s.visited).card :=
        Finset.card_pos.mpr ⟨nIdx, hmem⟩
      omega
    omega
  case isFalse h => exact le_refl _

theorem floodMeasure_pushNeighbor_le (img : ImageData) (s : FloodState)
    (nIdx nx ny : ℕ) (hflat : ny * img.width + nx = nIdx) :
    floodMeasure img (pushNeighbor (img.width * img.height) s nIdx nx ny)
      ≤ floodMeasure img s + 1 := by
  by_cases hlt : nIdx < img.width * img.height
  · exact le_trans (floodMeasure_pushNeighbor_le_of_lt img s nIdx nx ny hflat hlt)
      (by omega)
  · unfold pushNeighbor
    by_cases h : nIdx ∉ s.visited
    · rw [if_pos h]
      unfold floodMeasure markVisited
      rw [if_neg hlt]
      simp only [List.map_cons, List.sum_cons]
      have hw : entryWeight img.width (img.width * img.height) (nx, ny) = 1 := by
        unfold entryWeight
        simp only [hflat]
        rw [if_neg hlt]
      omega
    · rw [if_neg h]
      omega

theorem floodMeasure_acceptPixel (img : ImageData) (x y r g b : ℕ) (s : FloodState)
    (hflat : y * img.width + x < img.width * img.height) :
    floodMeasure img (acceptPixel img x y r g b s) ≤ floodMeasure img s + 1 := by
  simp only [acceptPixel]
  set s1 : FloodState := { s with
    selected := insert (y * img.width + x) s.selected,
    pixelCount := s.pixelCount + 1,
    minX := min s.minX x, maxX := max s.maxX x,
    minY := min s.minY y, maxY := max s.maxY y,
    totalR := s.totalR + r, totalG := s.totalG + g,
    totalB := s.totalB + b } with hs1
  set s2 := if 0 < x then
      pushNeighbor (img.width * img.height) s1 (y * img.width + x - 1) (x - 1) y
    else s1 with hs2
  set s3 := if x < img.width - 1 then
      pushNeighbor (img.width * img.height) s2 (y * img.width + x + 1) (x + 1) y
    else s2 with hs3
  set s4 := if 0 < y then
      pushNeighbor (img.width * img.height) s3 (y * img.width + x - img.width) x (y - 1)
    else s3 with hs4
  have e1 : floodMeasure img s1 = floodMeasure img s := rfl
  have e2 : floodMeasure img s2 ≤ floodMeasure img s1 := by
    rw [hs2]
    by_cases hc : 0 < x
    · rw [if_pos hc]
      exact floodMeasure_pushNeighbor_le_of_lt img s1 _ _ _ (by omega) (by omega)
    · rw [if_neg hc]
  have e3 : floodMeasure img s3 ≤ floodMeasure img s2 := by
    rw [hs3]
    by_cases hc : x < img.width - 1
    · rw [if_pos hc]
      have hyh : y < img.height := by
        have h1 : y * img.width < img.height * img.width := by
          have h2 : y * img.width ≤ y * img.width + x := Nat.le_add_right _ _
          have h3 : img.width * img.height = img.height * img.width := Nat.mul_comm _ _
          omega
        exact Nat.lt_of_mul_lt_mul_right h1
      have hrange : y * img.width + x + 1 < img.width * img.height := by
        have h4 : (y + 1) * img.width ≤ img.height * img.width :=
          Nat.mul_le_mul_right img.width hyh
        have h5 : (y + 1) * img.width = y * img.width + img.width := by ring
        have h3 : img.width * img.height = img.height * img.width := Nat.mul_comm _ _
        omega
      exact floodMeasure_pushNeighbor_le_of_lt img s2 _ _ _ (by omega) hrange
    · rw [if_neg hc]
  have e4 : floodMeasure img s4 ≤ floodMeasure img s3 := by
    rw [hs4]
    by_cases hc : 0 < y
    · rw [if_pos hc]
      have hcoord : (y - 1) * img.width + x = y * img.width + x - img.width := by
        have h6 : ((y - 1) + 1) * img.width = (y - 1) * img.width + img.width := by
          ring
        have h7 : (y - 1) + 1 = y := by omega
        rw [h7] at h6
        omega
      exact floodMeasure_pushNeighbor_le_of_lt img s3 _ _ _ hcoord (by omega)
    · rw [if_neg hc]
  have e5 : floodMeasure img (if y < img.height - 1 then
      pushNeighbor (img.width * img.height) s4 (y * img.width + x + img.width) x (y + 1)
      else s4) ≤ floodMeasure img s4 + 1 := by
    by_cases hc : y < img.height - 1
    · rw [if_pos hc]
      have hcoord : (y + 1) * img.width + x = y * img.width + x + img.width := by
        have h5 : (y + 1) * img.width = y * img.width + img.width := by ring
        omega
      exact floodMeasure_pushNeighbor_le img s4 _ _ _ hcoord
    · rw [if_neg hc]
      omega
  omega

theorem floodMeasure_step (img : ImageData) (seed : Option (ℕ × ℕ × ℕ))
    (tolerance : ℕ) (x y : ℕ) (s : FloodState) (rest : List (ℕ × ℕ))
    (hs : s.stack = (x, y) :: rest) :
    floodMeasure img (floodVisit img seed tolerance x y { s with stack := rest })
      < floodMeasure img s := by
  have hpop : floodMeasure img s
      = entryWeight img.width (img.width * img.height) (x, y)
        + floodMeasure img { s with stack := rest } := by
    unfold floodMeasure
    rw [hs]
    simp only [List.map_cons, List.sum_cons]
    ring
  have hw1 : 1 ≤ entryWeight img.width (img.width * img.height) (x, y) :=
    one_le_entryWeight _ _ _
  unfold floodVisit
  cases hread : readRGB img (y * img.width + x) with
  | none =>
    simp only [hread]
    cases seed with
    | none => omega
    | some sc => omega
  | some c =>
    obtain ⟨r, g, b⟩ := c
    cases seed with
    | none =>
      simp only [hread]
      omega
    | some sc =>
      obtain ⟨sr, sg, sb⟩ := sc
      simp only [hread]
      by_cases htest : 2500 * (colorDistanceSquared (r : ℤ) g b sr sg sb : ℤ)
          ≤ 48841 * (tolerance : ℤ) ^ 2
      · rw [if_pos htest]
        have hlt : y * img.width + x < img.width * img.height :=
          readRGB_flat_lt img _ _ hread
        have hacc := floodMeasure_acceptPixel img x y r g b
          { s with stack := rest } hlt
        have hw2 : entryWeight img.width (img.width * img.height) (x, y) = 2 := by
          unfold entryWeight
          exact if_pos hlt
        omega
      · rw [if_neg htest]
        omega

/-- With fuel at least the measure, the loop drains the stack — i.e. the
fuel-indexed `floodLoop` with `floodFuel` computes exactly what the
source's unbounded `while` loop computes. -/
theorem floodLoop_stack_empty (img : ImageData) (seed : Option (ℕ × ℕ × ℕ))
    (tolerance : ℕ) : ∀ (fuel : ℕ) (s : FloodState),
    floodMeasure img s ≤ fuel →
    (floodLoop img seed tolerance fuel s).stack = [] := by
  intro fuel
  induction fuel with
  | zero =>
    intro s h
    cases hs : s.stack with
    | nil => simpa [floodLoop] using hs
    | cons e rest =>
      exfalso
      have h1 : 1 ≤ entryWeight img.width (img.width * img.height) e :=
        one_le_entryWeight _ _ _
      have h2 : floodMeasure img s
          = ((e :: rest).map (entryWeight img.width (img.width * img.height))).sum
            + 3 * ((Finset.range (img.width * img.height)) \ s.visited).card := by
        unfold floodMeasure
        rw [hs]
      simp only [List.map_cons, List.sum_cons] at h2
      omega
  | succ fuel ih =>
    intro s h
    cases hs : s.stack with
    | nil =>
      have : floodLoop img seed tolerance (fuel + 1) s = s := by
        rw [floodLoop, hs]
      rw [this, hs]
    | cons e rest =>
      obtain ⟨x, y⟩ := e
      have hstep := floodMeasure_step img seed tolerance x y s rest hs
      have heq : floodLoop img seed tolerance (fuel + 1) s
          = floodLoop img seed tolerance fuel
            (floodVisit img seed tolerance x y { s with stack := rest }) := by
        rw [floodLoop, hs]
      rw [heq]
      exact ih _ (by omega)

/-- The initial measure is below `floodFuel`. -/
theorem floodMeasure_init_le (img : ImageData) (startX startY : ℕ) :
    floodMeasure img (floodInit img startX startY) ≤ floodFuel img := by
  unfold floodMeasure floodInit floodFuel
  simp only [List.map_cons, List.map_nil, List.sum_cons, List.sum_nil]
  have h1 : entryWeight img.width (img.width * img.height) (startX, startY) ≤ 2 := by
    unfold entryWeight
    split <;> omega
  have h2 : ((Finset.range (img.width * img.height))
      \ markVisited (img.width * img.height) ∅ (startY * img.width + startX)).card
      ≤ img.width * img.height := by
    exact le_trans (Finset.card_le_card (Finset.sdiff_subset))
      (by rw [Finset.card_range])
  omega

/-! ### Flood-fill invariants (in-bounds seed) -/

theorem flat_mod (x y w : ℕ) (hx : x < w) : (y * w + x) % w = x := by
  rw [Nat.add_comm, Nat.add_mul_mod_self_right, Nat.mod_eq_of_lt hx]

theorem flat_div (x y w : ℕ) (hx : x < w) : (y * w + x) / w = y := by
  rw [Nat.add_comm, Nat.add_mul_div_right _ _ (by omega : 0 < w),
    Nat.div_eq_of_lt hx, Nat.zero_add]

theorem flat_lt (x y w h : ℕ) (hx : x < w) (hy : y < h) : y * w + x < w * h := by
  have h1 : (y + 1) * w = y * w + w := by ring
  have h2 : (y + 1) * w ≤ h * w := Nat.mul_le_mul_right w hy
  have h3 : w * h = h * w := Nat.mul_comm _ _
  omega

theorem distSqToColor_def (img : ImageData) (i : ℕ) (c : ℕ × ℕ × ℕ) :
    distSqToColor img i c
      = colorDistanceSquared (dataByte img (4 * i)) (dataByte img (4 * i + 1))
        (dataByte img (4 * i + 2)) c.1 c.2.1 c.2.2 := by
  unfold distSqToColor
  simp only [Nat.mul_comm i 4]

theorem pushNeighbor_selected (total : ℕ) (s : FloodState) (nIdx nx ny : ℕ) :
    (pushNeighbor total s nIdx nx ny).selected = s.selected := by
  unfold pushNeighbor
  split <;> rfl

theorem min_char_insert (f : ℕ → ℕ) (sel : Finset ℕ) (flat cur : ℕ)
    (hchar : (∃ p ∈ sel, f p = cur) ∧ ∀ p ∈ sel, cur ≤ f p) :
    (∃ p ∈ insert flat sel, f p = min cur (f flat)) ∧
      ∀ p ∈ insert flat sel, min cur (f flat) ≤ f p := by
  obtain ⟨⟨p0, hp0, hfp0⟩, hall⟩ := hchar
  constructor
  · by_cases hle : cur ≤ f flat
    · rw [min_eq_left hle]
      exact ⟨p0, Finset.mem_insert_of_mem hp0, hfp0⟩
    · rw [min_eq_right (by omega : f flat ≤ cur)]
      exact ⟨flat, Finset.mem_insert_self _ _, rfl⟩
  · intro p hp
    rcases Finset.mem_insert.mp hp with rfl | hp
    · exact min_le_right _ _
    · exact le_trans (min_le_left _ _) (hall p hp)

theorem max_char_insert (f : ℕ → ℕ) (sel : Finset ℕ) (flat cur : ℕ)
    (hchar : (∃ p ∈ sel, f p = cur) ∧ ∀ p ∈ sel, f p ≤ cur) :
    (∃ p ∈ insert flat sel, f p = max cur (f flat)) ∧
      ∀ p ∈ insert flat sel, f p ≤ max cur (f flat) := by
  obtain ⟨⟨p0, hp0, hfp0⟩, hall⟩ := hchar
  constructor
  · by_cases hle : f flat ≤ cur
    · rw [max_eq_left hle]
      exact ⟨p0, Finset.mem_insert_of_mem hp0, hfp0⟩
    · rw [max_eq_right (by omega : cur ≤ f flat)]
      exact ⟨flat, Finset.mem_insert_self _ _, rfl⟩
  · intro p hp
    rcases Finset.mem_insert.mp hp with rfl | hp
    · exact le_max_right _ _
    · exact le_trans (hall p hp) (le_max_left _ _)

/-- Loop invariant of the flood fill run from an in-bounds seed at
`(startX, startY)`.  `e.2 * width + e.1` is the flat index of a stack
entry. -/
structure FloodInv (img : ImageData) (tolerance startX startY : ℕ)
    (s : FloodState) : Prop where
  sel_range : ∀ p ∈ s.selected, p < img.width * img.height
  sel_dist : ∀ p ∈ s.selected,
    2500 * distSqToColor img p (pixelRGB img (startY * img.width + startX))
      ≤ 48841 * (tolerance : ℤ) ^ 2
  stack_coord : ∀ e ∈ s.stack, e.1 < img.width ∧ e.2 < img.height
  stack_nodup : (s.stack.map fun e => e.2 * img.width + e.1).Nodup
  stack_visited : ∀ e ∈ s.stack, e.2 * img.width + e.1 ∈ s.visited
  sel_visited : ∀ p ∈ s.selected, p ∈ s.visited
  stack_not_sel : ∀ e ∈ s.stack, e.2 * img.width + e.1 ∉ s.selected
  count_eq : s.pixelCount = s.selected.card
  empty_case : s.selected = ∅ → s.stack = [(startX, startY)] ∧ s.minX = startX
    ∧ s.maxX = startX ∧ s.minY = startY ∧ s.maxY = startY
  minX_char : s.selected.Nonempty → (∃ p ∈ s.selected, p % img.width = s.minX)
    ∧ ∀ p ∈ s.selected, s.minX ≤ p % img.width
  maxX_char : s.selected.Nonempty → (∃ p ∈ s.selected, p % img.width = s.maxX)
    ∧ ∀ p ∈ s.selected, p % img.width ≤ s.maxX
  minY_char : s.selected.Nonempty → (∃ p ∈ s.selected, p / img.width = s.minY)
    ∧ ∀ p ∈ s.selected, s.minY ≤ p / img.width
  maxY_char : s.selected.Nonempty → (∃ p ∈ s.selected, p / img.width = s.maxY)
    ∧ ∀ p ∈ s.selected, p / img.width ≤ s.maxY

theorem FloodInv_pushNeighbor (img : ImageData) (tolerance startX startY : ℕ)
    (s : FloodState) (inv : FloodInv img tolerance startX startY s)
    (hne : s.selected.Nonempty) (nx ny : ℕ)
    (hnx : nx < img.width) (hny : ny < img.height) :
    FloodInv img tolerance startX startY
      (pushNeighbor (img.width * img.height) s (ny * img.width + nx) nx ny) := by
  unfold pushNeighbor
  by_cases hvis : ny * img.width + nx ∉ s.visited
  · rw [if_pos hvis]
    have hlt : ny * img.width + nx < img.width * img.height := flat_lt nx ny _ _ hnx hny
    have hmark : markVisited (img.width * img.height) s.visited
        (ny * img.width + nx) = insert (ny * img.width + nx) s.visited := by
      unfold markVisited
      rw [if_pos hlt]
    refine ⟨inv.sel_range, inv.sel_dist, ?_, ?_, ?_, ?_, ?_, inv.count_eq, ?_,
      fun _ => inv.minX_char hne, fun _ => inv.maxX_char hne,
      fun _ => inv.minY_char hne, fun _ => inv.maxY_char hne⟩
    · intro e he
      rcases List.mem_cons.mp he with rfl | he
      · exact ⟨hnx, hny⟩
      · exact inv.stack_coord e he
    · simp only [List.map_cons]
      refine List.Nodup.cons ?_ inv.stack_nodup
      intro hmem
      obtain ⟨e, he, hfe⟩ := List.mem_map.mp hmem
      exact hvis (hfe ▸ inv.stack_visited e he)
    · intro e he
      rw [hmark]
      rcases List.mem_cons.mp he with rfl | he
      · exact Finset.mem_insert_self _ _
      · exact Finset.mem_insert_of_mem (inv.stack_visited e he)
    · intro p hp
      rw [hmark]
      exact Finset.mem_insert_of_mem (inv.sel_visited p hp)
    · intro e he
      rcases List.mem_cons.mp he with rfl | he
      · intro hsel
        exact hvis (inv.sel_visited _ hsel)
      · exact inv.stack_not_sel e he
    · intro hempty
      exact absurd hempty (Finset.nonempty_iff_ne_empty.mp hne)
  · rw [if_neg hvis]
    exact inv

theorem FloodInv_pushNeighbor_if (img : ImageData) (tolerance startX startY : ℕ)
    (cond : Prop) [Decidable cond] (s : FloodState) (nIdx nx ny : ℕ)
    (hcond : cond → nx < img.width ∧ ny < img.height ∧ nIdx = ny * img.width + nx)
    (inv : FloodInv img tolerance startX startY s) (hne : s.selected.Nonempty) :
    FloodInv img tolerance startX startY
      (if cond then pushNeighbor (img.width * img.height) s nIdx nx ny else s) := by
  by_cases hc : cond
  · rw [if_pos hc]
    obtain ⟨h1, h2, h3⟩ := hcond hc
    rw [h3]
    exact FloodInv_pushNeighbor img tolerance startX startY s inv hne nx ny h1 h2
  · rw [if_neg hc]
    exact inv

theorem pushNeighbor_if_selected (cond : Prop) [Decidable cond] (total : ℕ)
    (s : FloodState) (nIdx nx ny : ℕ) :
    (if cond then pushNeighbor total s nIdx nx ny else s).selected = s.selected := by
  split
  · exact pushNeighbor_selected _ _ _ _ _
  · rfl

theorem FloodInv_acceptPixel (img : ImageData) (tolerance startX startY x y : ℕ)
    (hxw : x < img.width) (hyh : y < img.height) (s0 : FloodState)
    (hdist : 2500 * distSqToColor img (y * img.width + x)
        (pixelRGB img (startY * img.width + startX))
      ≤ 48841 * (tolerance : ℤ) ^ 2)
    (sel_range : ∀ p ∈ s0.selected, p < img.width * img.height)
    (sel_dist : ∀ p ∈ s0.selected,
      2500 * distSqToColor img p (pixelRGB img (startY * img.width + startX))
        ≤ 48841 * (tolerance : ℤ) ^ 2)
    (stack_coord : ∀ e ∈ s0.stack, e.1 < img.width ∧ e.2 < img.height)
    (stack_nodup : (s0.stack.map fun e => e.2 * img.width + e.1).Nodup)
    (stack_visited : ∀ e ∈ s0.stack, e.2 * img.width + e.1 ∈ s0.visited)
    (sel_visited : ∀ p ∈ s0.selected, p ∈ s0.visited)
    (stack_not_sel : ∀ e ∈ s0.stack, e.2 * img.width + e.1 ∉ s0.selected)
    (hstack_ne_flat : ∀ e ∈ s0.stack, e.2 * img.width + e.1 ≠ y * img.width + x)
    (count_eq : s0.pixelCount = s0.selected.card)
    (hflat_vis : y * img.width + x ∈ s0.visited)
    (hflat_not_sel : y * img.width + x ∉ s0.selected)
    (hboundsE : s0.selected = ∅ →
      s0.minX = x ∧ s0.maxX = x ∧ s0.minY = y ∧ s0.maxY = y)
    (hminX : s0.selected.Nonempty → (∃ p ∈ s0.selected, p % img.width = s0.minX)
      ∧ ∀ p ∈ s0.selected, s0.minX ≤ p % img.width)
    (hmaxX : s0.selected.Nonempty → (∃ p ∈ s0.selected, p % img.width = s0.maxX)
      ∧ ∀ p ∈ s0.selected, p % img.width ≤ s0.maxX)
    (hminY : s0.selected.Nonempty → (∃ p ∈ s0.selected, p / img.width = s0.minY)
      ∧ ∀ p ∈ s0.selected, s0.minY ≤ p / img.width)
    (hmaxY : s0.selected.Nonempty → (∃ p ∈ s0.selected, p / img.width = s0.maxY)
      ∧ ∀ p ∈ s0.selected, p / img.width ≤ s0.maxY)
    (r g b : ℕ) :
    FloodInv img tolerance startX startY (acceptPixel img x y r g b s0) := by
  simp only [acceptPixel]
  set s1 : FloodState := { s0 with
    selected := insert (y * img.width + x) s0.selected,
    pixelCount := s0.pixelCount + 1,
    minX := min s0.minX x, maxX := max s0.maxX x,
    minY := min s0.minY y, maxY := max s0.maxY y,
    totalR := s0.totalR + r, totalG := s0.totalG + g,
    totalB := s0.totalB + b } with hs1
  set s2 := if 0 < x then
      pushNeighbor (img.width * img.height) s1 (y * img.width + x - 1) (x - 1) y
    else s1 with hs2
  set s3 := if x < img.width - 1 then
      pushNeighbor (img.width * img.height) s2 (y * img.width + x + 1) (x + 1) y
    else s2 with hs3
  set s4 := if 0 < y then
      pushNeighbor (img.width * img.height) s3 (y * img.width + x - img.width) x (y - 1)
    else s3 with hs4
  have hmodx : (y * img.width + x) % img.width = x := flat_mod x y _ hxw
  have hdivy : (y * img.width + x) / img.width = y := flat_div x y _ hxw
  have hinv1 : FloodInv img tolerance startX startY s1 := by
    rw [hs1]
    refine ⟨?_, ?_, stack_coord, stack_nodup, stack_visited, ?_, ?_, ?_, ?_,
      ?_, ?_, ?_, ?_⟩
    · intro p hp
      rcases Finset.mem_insert.mp hp with rfl | hp
      · exact flat_lt x y _ _ hxw hyh
      · exact sel_range p hp
    · intro p hp
      rcases Finset.mem_insert.mp hp with rfl | hp
      · exact hdist
      · exact sel_dist p hp
    · intro p hp
      rcases Finset.mem_insert.mp hp with rfl | hp
      · exact hflat_vis
      · exact sel_visited p hp
    · intro e he
      rw [Finset.mem_insert]
      push_neg
      exact ⟨hstack_ne_flat e he, stack_not_sel e he⟩
    · exact (congrArg (· + 1) count_eq).trans
        (Finset.card_insert_of_not_mem hflat_not_sel).symm
    · intro h
      exact absurd h (Finset.insert_ne_empty _ _)
    · intro _
      by_cases hE : s0.selected = ∅
      · rw [hE, (hboundsE hE).1, min_self]
        refine ⟨⟨y * img.width + x, Finset.mem_insert_self _ _, hmodx⟩, ?_⟩
        intro p hp
        rcases Finset.mem_insert.mp hp with rfl | hp
        · show x ≤ (y * img.width + x) % img.width
          omega
        · simp at hp
      · have h := min_char_insert (· % img.width) s0.selected (y * img.width + x)
          s0.minX (hminX (Finset.nonempty_iff_ne_empty.mpr hE))
        simp only [hmodx] at h
        exact h
    · intro _
      by_cases hE : s0.selected = ∅
      · rw [hE, (hboundsE hE).2.1, max_self]
        refine ⟨⟨y * img.width + x, Finset.mem_insert_self _ _, hmodx⟩, ?_⟩
        intro p hp
        rcases Finset.mem_insert.mp hp with rfl | hp
        · show (y * img.width + x) % img.width ≤ x
          omega
        · simp at hp
      · have h := max_char_insert (· % img.width) s0.selected (y * img.width + x)
          s0.maxX (hmaxX (Finset.nonempty_iff_ne_empty.mpr hE))
        simp only [hmodx] at h
        exact h
    · intro _
      by_cases hE : s0.selected = ∅
      · rw [hE, (hboundsE hE).2.2.1, min_self]
        refine ⟨⟨y * img.width + x, Finset.mem_insert_self _ _, hdivy⟩, ?_⟩
        intro p hp
        rcases Finset.mem_insert.mp hp with rfl | hp
        · show y ≤ (y * img.width + x) / img.width
          omega
        · simp at hp
      · have h := min_char_insert (· / img.width) s0.selected (y * img.width + x)
          s0.minY (hminY (Finset.nonempty_iff_ne_empty.mpr hE))
        simp only [hdivy] at h
        exact h
    · intro _
      by_cases hE : s0.selected = ∅
      · rw [hE, (hboundsE hE).2.2.2, max_self]
        refine ⟨⟨y * img.width + x, Finset.mem_insert_self _ _, hdivy⟩, ?_⟩
        intro p hp
        rcases Finset.mem_insert.mp hp with rfl | hp
        · show (y * img.width + x) / img.width ≤ y
          omega
        · simp at hp
      · have h := max_char_insert (· / img.width) s0.selected (y * img.width + x)
          s0.maxY (hmaxY (Finset.nonempty_iff_ne_empty.mpr hE))
        simp only [hdivy] at h
        exact h
  have hne1 : s1.selected.Nonempty := by
    rw [hs1]
    exact ⟨y * img.width + x, Finset.mem_insert_self _ _⟩
  have hinv2 : FloodInv img tolerance startX startY s2 := by
    rw [hs2]
    refine FloodInv_pushNeighbor_if img tolerance startX startY _ _ _ _ _ ?_ hinv1 hne1
    intro hc
    exact ⟨by omega, hyh, by omega⟩
  have hne2 : s2.selected.Nonempty := by
    rw [hs2, pushNeighbor_if_selected]
    exact hne1
  have hinv3 : FloodInv img tolerance startX startY s3 := by
    rw [hs3]
    refine FloodInv_pushNeighbor_if img tolerance startX startY _ _ _ _ _ ?_ hinv2 hne2
    intro hc
    exact ⟨by omega, hyh, by omega⟩
  have hne3 : s3.selected.Nonempty := by
    rw [hs3, pushNeighbor_if_selected]
    exact hne2
  have hinv4 : FloodInv img tolerance startX startY s4 := by
    rw [hs4]
    refine FloodInv_pushNeighbor_if img tolerance startX startY _ _ _ _ _ ?_ hinv3 hne3
    intro hc
    refine ⟨hxw, by omega, ?_⟩
    have h6 : ((y - 1) + 1) * img.width = (y - 1) * img.width + img.width := by ring
    have h7 : (y - 1) + 1 = y := by omega
    rw [h7] at h6
    omega
  have hne4 : s4.selected.Nonempty := by
    rw [hs4, pushNeighbor_if_selected]
    exact hne3
  refine FloodInv_pushNeighbor_if img tolerance startX startY _ _ _ _ _ ?_ hinv4 hne4
  intro hc
  refine ⟨hxw, by omega, ?_⟩
  have h5 : (y + 1) * img.width = y * img.width + img.width := by ring
  omega

theorem FloodInv_step (img : ImageData) (tolerance startX startY : ℕ)
    (hx : startX < img.width) (hy : startY < img.height)
    (s : FloodState) (x y : ℕ) (rest : List (ℕ × ℕ))
    (hs : s.stack = (x, y) :: rest)
    (inv : FloodInv img tolerance startX startY s) :
    FloodInv img tolerance startX startY
      (floodVisit img (readRGB img (startY * img.width + startX)) tolerance x y
        { s with stack := rest }) := by
  have hxy := inv.stack_coord (x, y) (by rw [hs]; exact List.mem_cons_self _ _)
  have hxw : x < img.width := hxy.1
  have hyh : y < img.height := hxy.2
  have hflt : y * img.width + x < img.width * img.height := flat_lt x y _ _ hxw hyh
  have hseedlt : startY * img.width + startX < img.width * img.height :=
    flat_lt startX startY _ _ hx hy
  have hseed : readRGB img (startY * img.width + startX)
      = some (dataByte img (4 * (startY * img.width + startX)),
          dataByte img (4 * (startY * img.width + startX) + 1),
          dataByte img (4 * (startY * img.width + startX) + 2)) :=
    readRGB_eq_some_of_lt img _ hseedlt
  have hread : readRGB img (y * img.width + x)
      = some (dataByte img (4 * (y * img.width + x)),
          dataByte img (4 * (y * img.width + x) + 1),
          dataByte img (4 * (y * img.width + x) + 2)) :=
    readRGB_eq_some_of_lt img _ hflt
  have hmem_stack : ∀ e ∈ rest, e ∈ s.stack := fun e he => by
    rw [hs]
    exact List.mem_cons_of_mem _ he
  have hnodup := inv.stack_nodup
  rw [hs] at hnodup
  simp only [List.map_cons, List.nodup_cons] at hnodup
  unfold floodVisit
  simp only [hread, hseed]
  by_cases htest : 2500 * (colorDistanceSquared
      (dataByte img (4 * (y * img.width + x)) : ℤ)
      (dataByte img (4 * (y * img.width + x) + 1))
      (dataByte img (4 * (y * img.width + x) + 2))
      (dataByte img (4 * (startY * img.width + startX)))
      (dataByte img (4 * (startY * img.width + startX) + 1))
      (dataByte img (4 * (startY * img.width + startX) + 2)) : ℤ)
      ≤ 48841 * (tolerance : ℤ) ^ 2
  · rw [if_pos htest]
    refine FloodInv_acceptPixel img tolerance startX startY x y hxw hyh
      { s with stack := rest } ?_ inv.sel_range inv.sel_dist
      (fun e he => inv.stack_coord e (hmem_stack e he)) hnodup.2
      (fun e he => inv.stack_visited e (hmem_stack e he)) inv.sel_visited
      (fun e he => inv.stack_not_sel e (hmem_stack e he)) ?_ inv.count_eq
      (inv.stack_visited (x, y) (by rw [hs]; exact List.mem_cons_self _ _))
      (inv.stack_not_sel (x, y) (by rw [hs]; exact List.mem_cons_self _ _)) ?_
      (fun hne => inv.minX_char hne) (fun hne => inv.maxX_char hne)
      (fun hne => inv.minY_char hne) (fun hne => inv.maxY_char hne) _ _ _
    · rw [distSqToColor_def]
      exact htest
    · intro e he heq
      exact hnodup.1 (heq ▸ List.mem_map_of_mem _ he)
    · intro hE
      obtain ⟨hstk, h1, h2, h3, h4⟩ := inv.empty_case hE
      have hcons : (startX, startY) = (x, y) ∧ ([] : List (ℕ × ℕ)) = rest := by
        simpa using hstk.symm.trans hs
      have hx2 : startX = x := congrArg Prod.fst hcons.1
      have hy2 : startY = y := congrArg Prod.snd hcons.1
      refine ⟨?_, ?_, ?_, ?_⟩
      · show s.minX = x
        omega
      · show s.maxX = x
        omega
      · show s.minY = y
        omega
      · show s.maxY = y
        omega
  · rw [if_neg htest]
    by_cases hselE : s.selected = ∅
    · exfalso
      obtain ⟨hstk, -, -, -, -⟩ := inv.empty_case hselE
      have hcons : (startX, startY) = (x, y) ∧ ([] : List (ℕ × ℕ)) = rest := by
        simpa using hstk.symm.trans hs
      have hx2 : startX = x := congrArg Prod.fst hcons.1
      have hy2 : startY = y := congrArg Prod.snd hcons.1
      subst hx2
      subst hy2
      rw [colorDistanceSquared_self] at htest
      apply htest
      have h0 : (0 : ℤ) ≤ 48841 * (tolerance : ℤ) ^ 2 := by positivity
      omega
    · refine ⟨inv.sel_range, inv.sel_dist,
        fun e he => inv.stack_coord e (hmem_stack e he), hnodup.2,
        fun e he => inv.stack_visited e (hmem_stack e he), inv.sel_visited,
        fun e he => inv.stack_not_sel e (hmem_stack e he), inv.count_eq, ?_,
        fun hne => inv.minX_char hne, fun hne => inv.maxX_char hne,
        fun hne => inv.minY_char hne, fun hne => inv.maxY_char hne⟩
      intro hE
      exact absurd hE hselE

theorem acceptPixel_selected (img : ImageData) (x y r g b : ℕ) (s : FloodState) :
    (acceptPixel img x y r g b s).selected = insert (y * img.width + x) s.selected := by
  simp only [acceptPixel]
  rw [pushNeighbor_if_selected, pushNeighbor_if_selected, pushNeighbor_if_selected,
    pushNeighbor_if_selected]

theorem floodVisit_selected_subset (img : ImageData) (seed : Option (ℕ × ℕ × ℕ))
    (tolerance x y : ℕ) (s : FloodState) :
    s.selected ⊆ (floodVisit img seed tolerance x y s).selected := by
  unfold floodVisit
  cases hr : readRGB img (y * img.width + x) with
  | none =>
    cases seed with
    | none => exact subset_rfl
    | some sc => exact subset_rfl
  | some c =>
    obtain ⟨r, g, b⟩ := c
    cases seed with
    | none => exact subset_rfl
    | some sc =>
      obtain ⟨sr, sg, sb⟩ := sc
      show s.selected ⊆ (if 2500 * (colorDistanceSquared (r : ℤ) g b sr sg sb : ℤ)
          ≤ 48841 * (tolerance : ℤ) ^ 2 then acceptPixel img x y r g b s
        else s).selected
      by_cases hc : 2500 * (colorDistanceSquared (r : ℤ) g b sr sg sb : ℤ)
          ≤ 48841 * (tolerance : ℤ) ^ 2
      · rw [if_pos hc, acceptPixel_selected]
        exact Finset.subset_insert _ _
      · rw [if_neg hc]

theorem floodLoop_selected_subset (img : ImageData) (seed : Option (ℕ × ℕ × ℕ))
    (tolerance : ℕ) : ∀ (fuel : ℕ) (s : FloodState),
    s.selected ⊆ (floodLoop img seed tolerance fuel s).selected := by
  intro fuel
  induction fuel with
  | zero => intro s; exact subset_rfl
  | succ fuel ih =>
    intro s
    cases hs : s.stack with
    | nil =>
      have heq : floodLoop img seed tolerance (fuel + 1) s = s := by
        rw [floodLoop, hs]
      rw [heq]
    | cons e rest =>
      obtain ⟨x, y⟩ := e
      have heq : floodLoop img seed tolerance (fuel + 1) s
          = floodLoop img seed tolerance fuel
            (floodVisit img seed tolerance x y { s with stack := rest }) := by
        rw [floodLoop, hs]
      rw [heq]
      exact subset_trans
        (floodVisit_selected_subset img seed tolerance x y { s with stack := rest })
        (ih _)

theorem FloodInv_floodInit (img : ImageData) (tolerance startX startY : ℕ)
    (hx : startX < img.width) (hy : startY < img.height) :
    FloodInv img tolerance startX startY (floodInit img startX startY) := by
  have hseedlt : startY * img.width + startX < img.width * img.height :=
    flat_lt startX startY _ _ hx hy
  have hmark : markVisited (img.width * img.height) ∅
      (startY * img.width + startX) = insert (startY * img.width + startX) ∅ := by
    unfold markVisited
    rw [if_pos hseedlt]
  refine ⟨fun p hp => absurd hp (Finset.not_mem_empty p),
    fun p hp => absurd hp (Finset.not_mem_empty p), ?_, ?_, ?_,
    fun p hp => absurd hp (Finset.not_mem_empty p), ?_, ?_,
    fun _ => ⟨rfl, rfl, rfl, rfl, rfl⟩, ?_, ?_, ?_, ?_⟩
  · intro e he
    have he2 : e = (startX, startY) := by simpa [floodInit] using he
    rw [he2]
    exact ⟨hx, hy⟩
  · simp [floodInit]
  · intro e he
    have he2 : e = (startX, startY) := by simpa [floodInit] using he
    show e.2 * img.width + e.1 ∈ markVisited (img.width * img.height) ∅
      (startY * img.width + startX)
    rw [hmark, he2]
    simp
  · intro e _
    exact Finset.not_mem_empty _
  · simp [floodInit]
  · intro hne
    exact absurd hne (by simp [floodInit])
  · intro hne
    exact absurd hne (by simp [floodInit])
  · intro hne
    exact absurd hne (by simp [floodInit])
  · intro hne
    exact absurd hne (by simp [floodInit])

theorem FloodInv_floodLoop (img : ImageData) (tolerance startX startY : ℕ)
    (hx : startX < img.width) (hy : startY < img.height) :
    ∀ (fuel : ℕ) (s : FloodState), FloodInv img tolerance startX startY s →
      FloodInv img tolerance startX startY
        (floodLoop img (readRGB img (startY * img.width + startX)) tolerance fuel s) := by
  intro fuel
  induction fuel with
  | zero => intro s inv; exact inv
  | succ fuel ih =>
    intro s inv
    cases hs : s.stack with
    | nil =>
      have heq : floodLoop img (readRGB img (startY * img.width + startX))
          tolerance (fuel + 1) s = s := by
        rw [floodLoop, hs]
      rw [heq]
      exact inv
    | cons e rest =>
      obtain ⟨x, y⟩ := e
      have heq : floodLoop img (readRGB img (startY * img.width + startX))
          tolerance (fuel + 1) s
          = floodLoop img (readRGB img (startY * img.width + startX)) tolerance fuel
            (floodVisit img (readRGB img (startY * img.width + startX)) tolerance
              x y { s with stack := rest }) := by
        rw [floodLoop, hs]
      rw [heq]
      exact ih _ (FloodInv_step img tolerance startX startY hx hy s x y rest hs inv)

theorem floodLoop_selected_nonempty (img : ImageData) (tolerance startX startY : ℕ)
    (hx : startX < img.width) (hy : startY < img.height) (fuel : ℕ) :
    (floodLoop img (readRGB img (startY * img.width + startX)) tolerance (fuel + 1)
      (floodInit img startX startY)).selected.Nonempty := by
  have hseedlt : startY * img.width + startX < img.width * img.height :=
    flat_lt startX startY _ _ hx hy
  have hseed : readRGB img (startY * img.width + startX)
      = some (dataByte img (4 * (startY * img.width + startX)),
          dataByte img (4 * (startY * img.width + startX) + 1),
          dataByte img (4 * (startY * img.width + startX) + 2)) :=
    readRGB_eq_some_of_lt img _ hseedlt
  have heq : floodLoop img (readRGB img (startY * img.width + startX)) tolerance
      (fuel + 1) (floodInit img startX startY)
      = floodLoop img (readRGB img (startY * img.width + startX)) tolerance fuel
        (floodVisit img (readRGB img (startY * img.width + startX)) tolerance
          startX startY { floodInit img startX startY with stack := [] }) := rfl
  rw [heq]
  have hctest : 2500 * (colorDistanceSquared
      (dataByte img (4 * (startY * img.width + startX)) : ℤ)
      (dataByte img (4 * (startY * img.width + startX) + 1))
      (dataByte img (4 * (startY * img.width + startX) + 2))
      (dataByte img (4 * (startY * img.width + startX)))
      (dataByte img (4 * (startY * img.width + startX) + 1))
      (dataByte img (4 * (startY * img.width + startX) + 2)) : ℤ)
      ≤ 48841 * (tolerance : ℤ) ^ 2 := by
    rw [colorDistanceSquared_self]
    have h0 : (0 : ℤ) ≤ 48841 * (tolerance : ℤ) ^ 2 := by positivity
    omega
  have hvis : (floodVisit img (readRGB img (startY * img.width + startX)) tolerance
      startX startY { floodInit img startX startY with stack := [] }).selected
      = insert (startY * img.width + startX)
        ({ floodInit img startX startY with stack := [] } : FloodState).selected := by
    show (floodVisit img (readRGB img (startY * img.width + startX)) tolerance
      startX startY { floodInit img startX startY with stack := [] }).selected = _
    unfold floodVisit
    simp only [hseed]
    rw [if_pos hctest, acceptPixel_selected]
  have hmem : startY * img.width + startX
      ∈ (floodVisit img (readRGB img (startY * img.width + startX)) tolerance
        startX startY { floodInit img startX startY with stack := [] }).selected := by
    rw [hvis]
    exact Finset.mem_insert_self _ _
  
  exact ⟨startY * img.width + startX,
    floodLoop_selected_subset img _ tolerance fuel _ hmem⟩

/-! ### C1: containment and tight bounds of `magicSelect` -/

/-- Bit `j` of the decoded RLE mask of a region. -/
def regionMaskBit (r : MagicRegion) (j : ℕ) : ℕ :=
  (decodeMaskFromRLE r.maskRLE (r.bounds.width * r.bounds.height)).getD j 0

theorem length_boundsMask (w : ℕ) (selected : Finset ℕ) (minX minY bw bh : ℕ) :
    (boundsMask w selected minX minY bw bh).length = bw * bh := by
  simp [boundsMask]

theorem boundsMask_binary (w : ℕ) (selected : Finset ℕ) (minX minY bw bh : ℕ) :
    ∀ v ∈ boundsMask w selected minX minY bw bh, v = 0 ∨ v = 1 := by
  intro v hv
  obtain ⟨j, _, hj⟩ := List.mem_map.mp hv
  by_cases hc : (minY + j / bw) * w + (minX + j % bw) ∈ selected
  · rw [if_pos hc] at hj
    right
    omega
  · rw [if_neg hc] at hj
    left
    omega

theorem getD_boundsMask (w : ℕ) (selected : Finset ℕ) (minX minY bw bh j : ℕ)
    (hj : j < bw * bh) :
    (boundsMask w selected minX minY bw bh).getD j 0
      = if (minY + j / bw) * w + (minX + j % bw) ∈ selected then 1 else 0 := by
  unfold boundsMask
  rw [List.getD_eq_getElem?_getD, List.getElem?_map]
  have h1 : (List.range (bw * bh))[j]? = some j := by
    simp [hj]
  rw [h1]
  rfl

theorem regionMaskBit_eq (img : ImageData) (sx sy t j : ℕ) :
    regionMaskBit (magicSelect img sx sy t) j
      = (boundsMask img.width (magicFinal img sx sy t).selected
          (magicFinal img sx sy t).minX (magicFinal img sx sy t).minY
          ((magicFinal img sx sy t).maxX - (magicFinal img sx sy t).minX + 1)
          ((magicFinal img sx sy t).maxY - (magicFinal img sx sy t).minY + 1)).getD
          j 0 := by
  unfold regionMaskBit
  have hrle : (magicSelect img sx sy t).maskRLE
      = encodeMaskToRLE (boundsMask img.width (magicFinal img sx sy t).selected
          (magicFinal img sx sy t).minX (magicFinal img sx sy t).minY
          ((magicFinal img sx sy t).maxX - (magicFinal img sx sy t).minX + 1)
          ((magicFinal img sx sy t).maxY - (magicFinal img sx sy t).minY + 1)) := rfl
  have hbw : (magicSelect img sx sy t).bounds.width
      = (magicFinal img sx sy t).maxX - (magicFinal img sx sy t).minX + 1 := rfl
  have hbh : (magicSelect img sx sy t).bounds.height
      = (magicFinal img sx sy t).maxY - (magicFinal img sx sy t).minY + 1 := rfl
  rw [hrle, hbw, hbh]
  rw [← length_boundsMask img.width (magicFinal img sx sy t).selected
    (magicFinal img sx sy t).minX (magicFinal img sx sy t).minY
    ((magicFinal img sx sy t).maxX - (magicFinal img sx sy t).minX + 1)
    ((magicFinal img sx sy t).maxY - (magicFinal img sx sy t).minY + 1)]
  rw [decode_encode_roundtrip _ (boundsMask_binary _ _ _ _ _ _)]

theorem boundsMask_bit_selected (w : ℕ) (sel : Finset ℕ) (minX minY maxX maxY p : ℕ)
    (hminX : ∀ q ∈ sel, minX ≤ q % w) (hmaxX : ∀ q ∈ sel, q % w ≤ maxX)
    (hminY : ∀ q ∈ sel, minY ≤ q / w) (hmaxY : ∀ q ∈ sel, q / w ≤ maxY)
    (hp : p ∈ sel) :
    (boundsMask w sel minX minY (maxX - minX + 1) (maxY - minY + 1)).getD
        ((p / w - minY) * (maxX - minX + 1) + (p % w - minX)) 0 = 1
      ∧ ((p / w - minY) * (maxX - minX + 1) + (p % w - minX)) % (maxX - minX + 1)
          = p % w - minX
      ∧ ((p / w - minY) * (maxX - minX + 1) + (p % w - minX)) / (maxX - minX + 1)
          = p / w - minY := by
  have hrlt : p % w - minX < maxX - minX + 1 := by
    have h1 := hmaxX p hp
    have h2 := hminX p hp
    omega
  have halt : p / w - minY < maxY - minY + 1 := by
    have h1 := hmaxY p hp
    have h2 := hminY p hp
    omega
  have hjlt : (p / w - minY) * (maxX - minX + 1) + (p % w - minX)
      < (maxX - minX + 1) * (maxY - minY + 1) := flat_lt _ _ _ _ hrlt halt
  have hmod := flat_mod (p % w - minX) (p / w - minY) (maxX - minX + 1) hrlt
  have hdiv := flat_div (p % w - minX) (p / w - minY) (maxX - minX + 1) hrlt
  refine ⟨?_, hmod, hdiv⟩
  rw [getD_boundsMask _ _ _ _ _ _ _ hjlt, hmod, hdiv]
  have hyadd : minY + (p / w - minY) = p / w := by
    have := hminY p hp
    omega
  have hxadd : minX + (p % w - minX) = p % w := by
    have := hminX p hp
    omega
  rw [hyadd, hxadd, Nat.div_add_mod' p w, if_pos hp]

/-- C1: for every image buffer, in-bounds seed coordinates and tolerance,
every pixel set in the mask returned by `magicSelect`, mapped from
bounds-relative back to absolute coordinates, has weighted squared color
distance to the seed pixel's color at most `(tolerance·4.42)²`; and the
returned bounds is the tight bounding box of the selected set: every set
bit lies inside the `width × height` box and each of the four extreme
rows/columns of the box contains a set bit. -/
theorem claim_C1_magicSelect_containment_bounds (img : ImageData)
    (startX startY tolerance : ℕ)
    (hx : startX < img.width) (hy : startY < img.height)
    (r : MagicRegion) (hr : r = magicSelect img startX startY tolerance) :
    (∀ j, regionMaskBit r j = 1 →
      ((distSqToColor img ((r.bounds.y + j / r.bounds.width) * img.width
          + (r.bounds.x + j % r.bounds.width))
        (pixelRGB img (startY * img.width + startX)) : ℤ) : ℚ)
        ≤ ((tolerance : ℚ) * (221 / 50)) ^ 2) ∧
    (∀ j, regionMaskBit r j = 1 → j < r.bounds.width * r.bounds.height) ∧
    (∃ j, regionMaskBit r j = 1 ∧ j % r.bounds.width = 0) ∧
    (∃ j, regionMaskBit r j = 1 ∧ j % r.bounds.width = r.bounds.width - 1) ∧
    (∃ j, regionMaskBit r j = 1 ∧ j / r.bounds.width = 0) ∧
    (∃ j, regionMaskBit r j = 1 ∧ j / r.bounds.width = r.bounds.height - 1) := by
  subst hr
  have hinv : FloodInv img tolerance startX startY
      (magicFinal img startX startY tolerance) :=
    FloodInv_floodLoop img tolerance startX startY hx hy (floodFuel img) _
      (FloodInv_floodInit img tolerance startX startY hx hy)
  have hne : (magicFinal img startX startY tolerance).selected.Nonempty :=
    floodLoop_selected_nonempty img tolerance startX startY hx hy
      (3 * (img.width * img.height) + 1)
  have hbx : (magicSelect img startX startY tolerance).bounds.x
      = (magicFinal img startX startY tolerance).minX := rfl
  have hby : (magicSelect img startX startY tolerance).bounds.y
      = (magicFinal img startX startY tolerance).minY := rfl
  have hbw : (magicSelect img startX startY tolerance).bounds.width
      = (magicFinal img startX startY tolerance).maxX
        - (magicFinal img startX startY tolerance).minX + 1 := rfl
  have hbh : (magicSelect img startX startY tolerance).bounds.height
      = (magicFinal img startX startY tolerance).maxY
        - (magicFinal img startX startY tolerance).minY + 1 := rfl
  have hlen : (boundsMask img.width (magicFinal img startX startY tolerance).selected
      (magicFinal img startX startY tolerance).minX
      (magicFinal img startX startY tolerance).minY
      ((magicFinal img startX startY tolerance).maxX
        - (magicFinal img startX startY tolerance).minX + 1)
      ((magicFinal img startX startY tolerance).maxY
        - (magicFinal img startX startY tolerance).minY + 1)).length
      = ((magicFinal img startX startY tolerance).maxX
        - (magicFinal img startX startY tolerance).minX + 1)
        * ((magicFinal img startX startY tolerance).maxY
          - (magicFinal img startX startY tolerance).minY + 1) :=
    length_boundsMask _ _ _ _ _ _
  have hjlt : ∀ j, regionMaskBit (magicSelect img startX startY tolerance) j = 1 →
      j < ((magicFinal img startX startY tolerance).maxX
        - (magicFinal img startX startY tolerance).minX + 1)
        * ((magicFinal img startX startY tolerance).maxY
          - (magicFinal img startX startY tolerance).minY + 1) := by
    intro j hbit
    by_contra hcon
    rw [regionMaskBit_eq img startX startY tolerance j] at hbit
    rw [List.getD_eq_default] at hbit
    · omega
    · rw [hlen]
      omega
  refine ⟨?_, ?_, ?_, ?_, ?_, ?_⟩
  · intro j hbit
    have hjl := hjlt j hbit
    rw [regionMaskBit_eq img startX startY tolerance j,
      getD_boundsMask _ _ _ _ _ _ _ hjl] at hbit
    by_cases hc : ((magicFinal img startX startY tolerance).minY
        + j / ((magicFinal img startX startY tolerance).maxX
          - (magicFinal img startX startY tolerance).minX + 1)) * img.width
        + ((magicFinal img startX startY tolerance).minX
          + j % ((magicFinal img startX startY tolerance).maxX
            - (magicFinal img startX startY tolerance).minX + 1))
        ∈ (magicFinal img startX startY tolerance).selected
    · have hdist := hinv.sel_dist _ hc
      rw [hby, hbx, hbw]
      exact (floodTest_iff _ tolerance).mp hdist
    · rw [if_neg hc] at hbit
      omega
  · intro j hbit
    rw [hbw, hbh]
    exact hjlt j hbit
  · obtain ⟨p, hp, hpX⟩ := (hinv.minX_char hne).1
    obtain ⟨hbit, hmod, _⟩ := boundsMask_bit_selected img.width
      (magicFinal img startX startY tolerance).selected _ _ _ _ p
      (hinv.minX_char hne).2 (hinv.maxX_char hne).2
      (hinv.minY_char hne).2 (hinv.maxY_char hne).2 hp
    refine ⟨(p / img.width - (magicFinal img startX startY tolerance).minY)
        * ((magicFinal img startX startY tolerance).maxX
          - (magicFinal img startX startY tolerance).minX + 1)
        + (p % img.width - (magicFinal img startX startY tolerance).minX), ?_, ?_⟩
    · rw [regionMaskBit_eq img startX startY tolerance]
      exact hbit
    · rw [hbw, hmod, hpX]
      omega
  · obtain ⟨p, hp, hpX⟩ := (hinv.maxX_char hne).1
    obtain ⟨hbit, hmod, _⟩ := boundsMask_bit_selected img.width
      (magicFinal img startX startY tolerance).selected _ _ _ _ p
      (hinv.minX_char hne).2 (hinv.maxX_char hne).2
      (hinv.minY_char hne).2 (hinv.maxY_char hne).2 hp
    refine ⟨(p / img.width - (magicFinal img startX startY tolerance).minY)
        * ((magicFinal img startX startY tolerance).maxX
          - (magicFinal img startX startY tolerance).minX + 1)
        + (p % img.width - (magicFinal img startX startY tolerance).minX), ?_, ?_⟩
    · rw [regionMaskBit_eq img startX startY tolerance]
      exact hbit
    · rw [hbw, hmod, hpX]
      omega
  · obtain ⟨p, hp, hpY⟩ := (hinv.minY_char hne).1
    obtain ⟨hbit, _, hdiv⟩ := boundsMask_bit_selected img.width
      (magicFinal img startX startY tolerance).selected _ _ _ _ p
      (hinv.minX_char hne).2 (hinv.maxX_char hne).2
      (hinv.minY_char hne).2 (hinv.maxY_char hne).2 hp
    refine ⟨(p / img.width - (magicFinal img startX startY tolerance).minY)
        * ((magicFinal img startX startY tolerance).maxX
          - (magicFinal img startX startY tolerance).minX + 1)
        + (p % img.width - (magicFinal img startX startY tolerance).minX), ?_, ?_⟩
    · rw [regionMaskBit_eq img startX startY tolerance]
      exact hbit
    · rw [hbw, hdiv, hpY]
      omega
  · obtain ⟨p, hp, hpY⟩ := (hinv.maxY_char hne).1
    obtain ⟨hbit, _, hdiv⟩ := boundsMask_bit_selected img.width
      (magicFinal img startX startY tolerance).selected _ _ _ _ p
      (hinv.minX_char hne).2 (hinv.maxX_char hne).2
      (hinv.minY_char hne).2 (hinv.maxY_char hne).2 hp
    refine ⟨(p / img.width - (magicFinal img startX startY tolerance).minY)
        * ((magicFinal img startX startY tolerance).maxX
          - (magicFinal img startX startY tolerance).minX + 1)
        + (p % img.width - (magicFinal img startX startY tolerance).minX), ?_, ?_⟩
    · rw [regionMaskBit_eq img startX startY tolerance]
      exact hbit
    · rw [hbw, hbh, hdiv, hpY]
      omega

/-- Witness input for C1: a 2-by-1 buffer with two different pixels. -/
def twoPixelImage : ImageData :=
  ⟨2, 1, [10, 20, 30, 255, 200, 200, 200, 255], rfl⟩

/-- Witness for C1 at a concrete in-bounds seed. -/
theorem claim_C1_magicSelect_containment_bounds_witness :
    (∀ j, regionMaskBit (magicSelect twoPixelImage 0 0 3) j = 1 →
      ((distSqToColor twoPixelImage
          (((magicSelect twoPixelImage 0 0 3).bounds.y
              + j / (magicSelect twoPixelImage 0 0 3).bounds.width)
            * twoPixelImage.width
          + ((magicSelect twoPixelImage 0 0 3).bounds.x
              + j % (magicSelect twoPixelImage 0 0 3).bounds.width))
        (pixelRGB twoPixelImage (0 * twoPixelImage.width + 0)) : ℤ) : ℚ)
        ≤ (((3 : ℕ) : ℚ) * (221 / 50)) ^ 2) ∧
    (∀ j, regionMaskBit (magicSelect twoPixelImage 0 0 3) j = 1 →
      j < (magicSelect twoPixelImage 0 0 3).bounds.width
        * (magicSelect twoPixelImage 0 0 3).bounds.height) ∧
    (∃ j, regionMaskBit (magicSelect twoPixelImage 0 0 3) j = 1
      ∧ j % (magicSelect twoPixelImage 0 0 3).bounds.width = 0) ∧
    (∃ j, regionMaskBit (magicSelect twoPixelImage 0 0 3) j = 1
      ∧ j % (magicSelect twoPixelImage 0 0 3).bounds.width
          = (magicSelect twoPixelImage 0 0 3).bounds.width - 1) ∧
    (∃ j, regionMaskBit (magicSelect twoPixelImage 0 0 3) j = 1
      ∧ j / (magicSelect twoPixelImage 0 0 3).bounds.width = 0) ∧
    (∃ j, regionMaskBit (magicSelect twoPixelImage 0 0 3) j = 1
      ∧ j / (magicSelect twoPixelImage 0 0 3).bounds.width
          = (magicSelect twoPixelImage 0 0 3).bounds.height - 1) :=
  claim_C1_magicSelect_containment_bounds twoPixelImage 0 0 3 (by decide) (by decide)
    (magicSelect twoPixelImage 0 0 3) rfl

/-- Input of the C9 scenario: a 4-by-4 all-white buffer with a single black
pixel at `(2, 2)` (flat pixel 10, bytes 40-42). -/
def blackDotImage : ImageData :=
  ⟨4, 4, ((List.replicate 64 255).set 40 0 |>.set 41 0 |>.set 42 0), by decide⟩

/-- C9: on the 4-by-4 all-white buffer with one black pixel at `(2, 2)`,
`magicSelect` seeded at `(0, 0)` with tolerance `10` selects exactly 15
pixels with tight bounding box `{0, 0, 4, 4}`. -/
theorem claim_C9_magicSelect_scenario :
    (magicSelect blackDotImage 0 0 10).pixelCount = 15 ∧
      (magicSelect blackDotImage 0 0 10).bounds = ⟨0, 0, 4, 4⟩ := by
  decide

/-! ## Worker message protocol -/

/-- The worker's response messages (`_WorkerResponse` union of the
source). -/
inductive WorkerResponse where
  | progress (progress : ℤ)
  | complete (data : List ℕ)
  | autoThreshold (threshold : ℚ) (dominantColor : ℕ × ℕ × ℕ)
  | magicSelectResult (magicRegion : MagicRegion)
  | cancelled
  | errorResp (message : String)
deriving DecidableEq

def WorkerResponse.isErrorResp : WorkerResponse → Bool
  | .errorResp _ => true
  | _ => false

def WorkerResponse.isMagicSelectResult : WorkerResponse → Bool
  | .magicSelectResult _ => true
  | _ => false

/-- The `case 'magicSelect'` branch of `self.onmessage`: it always posts a
single `magicSelectResult`.  `magicSelect` performs no bounds check and — in
JS semantics, where out-of-range typed-array reads yield `undefined` and all
`NaN` comparisons are false — never throws, so the surrounding
`try`/`catch`'s `error` response is unreachable for this message type. -/
def handleMagicSelect (img : ImageData) (x y tolerance : ℕ) : WorkerResponse :=
  WorkerResponse.magicSelectResult (magicSelect img x y tolerance)

theorem floodLoop_of_stack_nil (img : ImageData) (seed : Option (ℕ × ℕ × ℕ))
    (tolerance fuel : ℕ) (s : FloodState) (hs : s.stack = []) :
    floodLoop img seed tolerance fuel s = s := by
  cases fuel with
  | zero => rfl
  | succ n => rw [floodLoop, hs]

theorem readRGB_eq_none_of_ge (img : ImageData) (flat : ℕ)
    (h : img.width * img.height ≤ flat) : readRGB img flat = none := by
  have hnone : img.data[4 * flat]? = none := by
    rw [List.getElem?_eq_none]
    rw [img.hdata]
    omega
  unfold readRGB
  rw [hnone]

theorem magicFinal_pixelCount_oob (img : ImageData) (x y t : ℕ)
    (h : img.width * img.height ≤ y * img.width + x) :
    (magicFinal img x y t).pixelCount = 0 := by
  have hnone := readRGB_eq_none_of_ge img (y * img.width + x) h
  have hv : floodVisit img (readRGB img (y * img.width + x)) t x y
      { floodInit img x y with stack := [] }
      = { floodInit img x y with stack := [] } := by
    unfold floodVisit
    rw [hnone]
  have hstep : magicFinal img x y t
      = floodLoop img (readRGB img (y * img.width + x)) t
        (3 * (img.width * img.height) + 1)
        (floodVisit img (readRGB img (y * img.width + x)) t x y
          { floodInit img x y with stack := [] }) := rfl
  rw [hstep, hv, floodLoop_of_stack_nil img (readRGB img (y * img.width + x)) t
    (3 * (img.width * img.height) + 1) _ rfl]
  rfl

/-- C4 (amended): a `magicSelect` request is always answered with a single
`magicSelectResult` and never with an `error` response — even for seeds
outside the buffer bounds or zero-size buffers (the worker performs no
geometry validation); when the seed's flat index lies beyond the buffer the
returned region selects zero pixels. -/
theorem claim_C4_magicSelect_no_error (img : ImageData) (x y tolerance : ℕ) :
    WorkerResponse.isMagicSelectResult (handleMagicSelect img x y tolerance) = true ∧
    WorkerResponse.isErrorResp (handleMagicSelect img x y tolerance) = false ∧
    (img.width * img.height ≤ y * img.width + x →
      (magicSelect img x y tolerance).pixelCount = 0) := by
  refine ⟨rfl, rfl, ?_⟩
  intro h
  have : (magicSelect img x y tolerance).pixelCount
      = (magicFinal img x y tolerance).pixelCount := rfl
  rw [this]
  exact magicFinal_pixelCount_oob img x y tolerance h

/-- C4 counterexample: the claim says an out-of-bounds seed produces an
`error` response and no `magicSelectResult`; in fact the worker answers
with a `magicSelectResult` (an empty region) and no error. -/
theorem claim_C4_counterexample :
    WorkerResponse.isErrorResp (handleMagicSelect whitePixelImage 5 7 10) = false ∧
    WorkerResponse.isMagicSelectResult (handleMagicSelect whitePixelImage 5 7 10)
        = true ∧
    (magicSelect whitePixelImage 5 7 10).pixelCount = 0 := by
  decide

/-- Input of the C4 witness: a 1-by-1 black buffer. -/
def blackPixelImage : ImageData := ⟨1, 1, [0, 0, 0, 255], rfl⟩

/-- Witness for the amended C4 at a concrete out-of-bounds request. -/
theorem claim_C4_magicSelect_no_error_witness :
    WorkerResponse.isMagicSelectResult (handleMagicSelect blackPixelImage 2 3 7)
        = true ∧
    WorkerResponse.isErrorResp (handleMagicSelect blackPixelImage 2 3 7) = false ∧
    (magicSelect blackPixelImage 2 3 7).pixelCount = 0 :=
  ⟨(claim_C4_magicSelect_no_error blackPixelImage 2 3 7).1,
    (claim_C4_magicSelect_no_error blackPixelImage 2 3 7).2.1,
    (claim_C4_magicSelect_no_error blackPixelImage 2 3 7).2.2 (by decide)⟩

/-! ## `processImage`: settings and edge processing -/

/-- `'auto' | 'manual' | 'colorPicker'`. -/
inductive PMode
  | auto
  | manual
  | colorPicker
deriving DecidableEq, Repr

/-- `'hard' | 'feathered' | 'decontaminate' | 'smooth' | 'refine'`. -/
inductive EdgeMode
  | hard
  | feathered
  | decontaminate
  | smooth
  | refine
deriving DecidableEq, Repr

/-- A user-picked color (the opaque `id` string is not modelled). -/
structure SelectedColor where
  r : ℕ
  g : ℕ
  b : ℕ
  tolerance : ℚ

structure MagicSelectionState where
  isActive : Bool
  tolerance : ℚ
  previewRegion : Option MagicRegion
  appliedRegions : List MagicRegion

structure ProcessingSettings where
  mode : PMode
  threshold : ℚ
  autoThreshold : ℚ
  selectedColors : List SelectedColor
  edgeMode : EdgeMode
  featherRadius : ℕ
  magicSelection : MagicSelectionState

/-- `useAdvancedEdge` of `processImage`. -/
def useAdvancedEdge (em : EdgeMode) : Bool :=
  decide (em = EdgeMode.decontaminate) || decide (em = EdgeMode.smooth)
    || decide (em = EdgeMode.refine)

/-- The classifier's strict comparison `distSq < threshold²` for an integer
squared distance and a rational threshold, computed exactly in `ℤ`
(`d < (num/den)² ↔ d·den² < num²` since `den > 0`; see
`ltThresholdSq_iff`). -/
def ltThresholdSq (d : ℤ) (t : ℚ) : Bool :=
  decide (d * (t.den : ℤ) ^ 2 < t.num ^ 2)

theorem ltThresholdSq_iff (d : ℤ) (t : ℚ) :
    ltThresholdSq d t = true ↔ ((d : ℚ) < t ^ 2) := by
  unfold ltThresholdSq
  rw [decide_eq_true_eq]
  have hdpos : (0 : ℚ) < (t.den : ℚ) := by exact_mod_cast t.pos
  have hmul : t * (t.den : ℚ) = (t.num : ℚ) := by
    nth_rewrite 1 [← Rat.num_div_den t]
    exact div_mul_cancel₀ _ (ne_of_gt hdpos)
  have hsq : t ^ 2 * (t.den : ℚ) ^ 2 = (t.num : ℚ) ^ 2 := by
    rw [← mul_pow, hmul]
  have hd2 : (0 : ℚ) < (t.den : ℚ) ^ 2 := by positivity
  constructor
  · intro h
    have h2 : (d : ℚ) * (t.den : ℚ) ^ 2 < (t.num : ℚ) ^ 2 := by exact_mod_cast h
    rw [← hsq] at h2
    exact (mul_lt_mul_right hd2).mp h2
  · intro h
    have h2 : (d : ℚ) * (t.den : ℚ) ^ 2 < t ^ 2 * (t.den : ℚ) ^ 2 :=
      (mul_lt_mul_right hd2).mpr h
    rw [hsq] at h2
    exact_mod_cast h2

/-- `gaussianFalloff` of the worker (cubic smoothstep between `threshold`
and `threshold + featherRadius`). -/
def gaussianFalloff (distance threshold featherRadius : ℚ) : ℤ :=
  if distance ≤ threshold then 0
  else if threshold + featherRadius ≤ distance then 255
  else
    let t := (distance - threshold) / featherRadius
    let smoothT := t * t * (3 - 2 * t)
    jsRound (smoothT * 255)

/-- `isEdgePixel` of the worker. -/
def isEdgePixel (alphaMask : List ℕ) (x y w h : ℕ) : Bool :=
  let centerAlpha := alphaMask.getD (y * w + x) 0
  let crossing :=
    if centerAlpha = 0 ∨ centerAlpha = 255 then
      let n1 := if 0 < y then alphaMask.getD ((y - 1) * w + x) 0 else centerAlpha
      let n2 := if y < h - 1 then alphaMask.getD ((y + 1) * w + x) 0 else centerAlpha
      let n3 := if 0 < x then alphaMask.getD (y * w + (x - 1)) 0 else centerAlpha
      let n4 := if x < w - 1 then alphaMask.getD (y * w + (x + 1)) 0 else centerAlpha
      [n1, n2, n3, n4].any fun n =>
        decide ((128 < centerAlpha ∧ n ≤ 128) ∨ (centerAlpha ≤ 128 ∧ 128 < n))
    else false
  crossing || decide (0 < centerAlpha ∧ centerAlpha < 255)

/-- `smoothEdges` of the worker.  The kernel weight
`Math.exp(-(dist·dist) / (2·smoothRadius))` with `dist = √(dx²+dy²)` is, in
exact arithmetic, `exp(-(dx²+dy²)/(2·smoothRadius))`, modelled with the
rational stand-in `expQ`.  Pixels are produced per flat index
`idx = y·width + x` (the source's row/column double loop visits each flat
index exactly once). -/
def smoothEdges (alphaMask : List ℕ) (width height radius : ℕ) : List ℕ :=
  let smoothRadius := max 1 (min radius 5)
  let kernelSize := smoothRadius * 2 + 1
  let kernel : List ℚ :=
    (List.range kernelSize).flatMap fun i =>
      (List.range kernelSize).map fun j =>
        expQ (-((((i : ℤ) - smoothRadius) * ((i : ℤ) - smoothRadius)
          + ((j : ℤ) - smoothRadius) * ((j : ℤ) - smoothRadius) : ℤ) : ℚ)
          / (2 * smoothRadius))
  let kernelSum : ℚ := kernel.foldl (· + ·) 0
  let kernelN := kernel.map (· / kernelSum)
  (List.range (width * height)).map fun idx =>
    let x := idx % width
    let y := idx / width
    let centerAlpha := alphaMask.getD idx 0
    let hasVariation :=
      (decide (0 < x) && decide (alphaMask.getD (idx - 1) 0 ≠ centerAlpha)) ||
      (decide (x < width - 1) && decide (alphaMask.getD (idx + 1) 0 ≠ centerAlpha)) ||
      (decide (0 < y) && decide (alphaMask.getD (idx - width) 0 ≠ centerAlpha)) ||
      (decide (y < height - 1) && decide (alphaMask.getD (idx + width) 0 ≠ centerAlpha))
    if !hasVariation then centerAlpha
    else
      let sum : ℚ := (List.range kernelSize).foldl (fun acc (ky : ℕ) =>
        (List.range kernelSize).foldl (fun acc2 (kx : ℕ) =>
          let nxz : ℤ := max 0 (min ((width : ℤ) - 1) ((x : ℤ) + ((kx : ℤ) - smoothRadius)))
          let nyz : ℤ := max 0 (min ((height : ℤ) - 1) ((y : ℤ) + ((ky : ℤ) - smoothRadius)))
          acc2 + (alphaMask.getD (nyz.toNat * width + nxz.toNat) 0 : ℚ)
            * kernelN.getD (ky * kernelSize + kx) 0) acc) 0
      (jsRound sum).toNat

/-- `refineEdges` of the worker: grayscale erosion then dilation over a
disk, then a 3-by-3 box blur on edge pixels only
(`Math.round(sum / 9) = (2·sum + 9) / 18` in `ℕ`). -/
def refineEdges (alphaMask : List ℕ) (width height radius : ℕ) : List ℕ :=
  let erodeRadius := max 1 (min radius 3)
  let diskFold : (ℤ → ℤ → ℕ → ℕ) → ℕ → ℕ → ℕ → ℕ := fun f x y init =>
    (List.range (2 * erodeRadius + 1)).foldl (fun m ky =>
      (List.range (2 * erodeRadius + 1)).foldl (fun m2 kx =>
        let dx : ℤ := (kx : ℤ) - erodeRadius
        let dy : ℤ := (ky : ℤ) - erodeRadius
        if (erodeRadius : ℤ) * erodeRadius < dx * dx + dy * dy then m2
        else
          let nxz : ℤ := (x : ℤ) + dx
          let nyz : ℤ := (y : ℤ) + dy
          if nxz < 0 ∨ (width : ℤ) ≤ nxz ∨ nyz < 0 ∨ (height : ℤ) ≤ nyz then m2
          else f nxz nyz m2) m) init
  let temp := (List.range (width * height)).map fun idx =>
    diskFold (fun nxz nyz m =>
        min m (alphaMask.getD (nyz.toNat * width + nxz.toNat) 0))
      (idx % width) (idx / width) (alphaMask.getD idx 0)
  let refined := (List.range (width * height)).map fun idx =>
    diskFold (fun nxz nyz m =>
        max m (temp.getD (nyz.toNat * width + nxz.toNat) 0))
      (idx % width) (idx / width) (temp.getD idx 0)
  (List.range (width * height)).map fun idx =>
    let x := idx % width
    let y := idx / width
    let center := refined.getD idx 0
    if 0 < x ∧ x < width - 1 ∧ 0 < y ∧ y < height - 1 then
      if refined.getD (idx - 1) 0 ≠ center ∨ refined.getD (idx + 1) 0 ≠ center
          ∨ refined.getD (idx - width) 0 ≠ center
          ∨ refined.getD (idx + width) 0 ≠ center then
        let sum := refined.getD (idx - width - 1) 0 + refined.getD (idx - width) 0
          + refined.getD (idx - width + 1) 0 + refined.getD (idx - 1) 0 + center
          + refined.getD (idx + 1) 0 + refined.getD (idx + width - 1) 0
          + refined.getD (idx + width) 0 + refined.getD (idx + width + 1) 0
        (2 * sum + 9) / 18
      else center
    else center

/-- `decontaminateEdges` of the worker (all JS decimal literals written as
exact rationals; `Math.sqrt` modelled by `sqrtQ`).  The double loop mutates
`imageData` in place; the fold threads the buffer through. -/
def decontaminateEdges (imageData alphaMask : List ℕ) (width height : ℕ)
    (bgColor : ℕ × ℕ × ℕ) (radius : ℕ) : List ℕ :=
  let edgeRadius := max 1 (min radius 10)
  (List.range height).foldl (fun dataY y =>
    (List.range width).foldl (fun d x =>
      let idx := y * width + x
      let alpha := alphaMask.getD idx 0
      if alpha = 0 then d
      else
        let isEdge := isEdgePixel alphaMask x y width height
        if !isEdge ∧ alpha = 255 then d
        else
          let pixelIdx := idx * 4
          let r := d.getD pixelIdx 0
          let g := d.getD (pixelIdx + 1) 0
          let b := d.getD (pixelIdx + 2) 0
          let bgSimilarity : ℚ := 1 - min 1 (sqrtQ
            (((colorDistanceSquared (r : ℤ) g b bgColor.1 bgColor.2.1
              bgColor.2.2 : ℤ) : ℚ)) / 200)
          let bgInfluence : ℚ := 1 - (alpha : ℚ) / 255
          let decontamStrength : ℚ := min 1 ((bgInfluence + bgSimilarity * (1 / 2))
            * (if isEdge then 6 / 5 else 4 / 5))
          if 1 / 20 < decontamStrength then
            let sampled : ℕ × ℕ × ℕ × ℕ :=
              (List.range (2 * edgeRadius + 1)).foldl (fun acc ky =>
                (List.range (2 * edgeRadius + 1)).foldl (fun acc2 kx =>
                  let dx : ℤ := (kx : ℤ) - edgeRadius
                  let dy : ℤ := (ky : ℤ) - edgeRadius
                  if dx = 0 ∧ dy = 0 then acc2
                  else
                    let nxz : ℤ := (x : ℤ) + dx
                    let nyz : ℤ := (y : ℤ) + dy
                    if nxz < 0 ∨ (width : ℤ) ≤ nxz ∨ nyz < 0 ∨ (height : ℤ) ≤ nyz
                    then acc2
                    else
                      let nIdx := nyz.toNat * width + nxz.toNat
                      let nAlpha := alphaMask.getD nIdx 0
                      if nAlpha = 255
                          ∧ !isEdgePixel alphaMask nxz.toNat nyz.toNat width height
                      then
                        (acc2.1 + d.getD (nIdx * 4) 0,
                          acc2.2.1 + d.getD (nIdx * 4 + 1) 0,
                          acc2.2.2.1 + d.getD (nIdx * 4 + 2) 0, acc2.2.2.2 + 1)
                      else acc2) acc) (0, 0, 0, 0)
            let count := sampled.2.2.2
            if 0 < count then
              let avgR : ℚ := (sampled.1 : ℚ) / count
              let avgG : ℚ := (sampled.2.1 : ℚ) / count
              let avgB : ℚ := (sampled.2.2.1 : ℚ) / count
              let cleanR : ℚ := r + (avgR - r) * decontamStrength * (7 / 10)
                - ((bgColor.1 : ℚ) - r) * bgSimilarity * (3 / 10)
              let cleanG : ℚ := g + (avgG - g) * decontamStrength * (7 / 10)
                - ((bgColor.2.1 : ℚ) - g) * bgSimilarity * (3 / 10)
              let cleanB : ℚ := b + (avgB - b) * decontamStrength * (7 / 10)
                - ((bgColor.2.2 : ℚ) - b) * bgSimilarity * (3 / 10)
              ((d.set pixelIdx (jsRound (max 0 (min 255 cleanR))).toNat).set
                (pixelIdx + 1) (jsRound (max 0 (min 255 cleanG))).toNat).set
                (pixelIdx + 2) (jsRound (max 0 (min 255 cleanB))).toNat
            else d
          else d) dataY) imageData

/-! ## `processImage`: phase 1, phase 2 and the response trace -/

/-- `chunkSize = 250000`. -/
def CHUNK_SIZE : ℕ := 250000

/-- Number of iterations of the chunk loop
(`for (chunkStart = 0; chunkStart < totalPixels; chunkStart += chunkSize)`). -/
def numChunks (totalPixels : ℕ) : ℕ := (totalPixels + CHUNK_SIZE - 1) / CHUNK_SIZE

/-- The `(chunkStart, chunkEnd)` pairs visited by the chunk loop, in order
(`chunkEnd = Math.min(chunkStart + chunkSize, totalPixels)`). -/
def chunkList (totalPixels : ℕ) : List (ℕ × ℕ) :=
  (List.range (numChunks totalPixels)).map
    fun k => (k * CHUNK_SIZE, min (k * CHUNK_SIZE + CHUNK_SIZE) totalPixels)

/-- The throttled progress value after a chunk:
`Math.round((processedPixels / totalPixels) · scale)`, computed exactly in
`ℕ` as `⌊(2·scale·p + tp) / (2·tp)⌋` (for `tp > 0` this equals
`⌊scale·p/tp + 1/2⌋`; for `tp = 0` the chunk loop never runs). -/
def progressOf (p tp scale : ℕ) : ℕ := (2 * scale * p + tp) / (2 * tp)

/-- The phase-1 tight-loop body of `processImage` for pixel `i`, acting on
`st = (data, alphaMask)`.  `Math.sqrt` is modelled by `sqrtQ`; the stores
`alphaMask[i] = Math.round(ratio * 255)` and
`data[pixelIndex + 3] = gaussianFalloff(...)` take values in `[0, 255]`
whenever the tolerance/threshold is nonnegative, so the typed-array
conversion is `Int.toNat`. -/
def processPixel (settings : ProcessingSettings) (dominantColor : ℕ × ℕ × ℕ)
    (effectiveThreshold : ℚ) (st : List ℕ × List ℕ) (i : ℕ) : List ℕ × List ℕ :=
  let data := st.1
  let alphaMask := st.2
  let pixelIndex := i * 4
  let r := data.getD pixelIndex 0
  let g := data.getD (pixelIndex + 1) 0
  let b := data.getD (pixelIndex + 2) 0
  let adv := useAdvancedEdge settings.edgeMode
  if settings.mode = PMode.colorPicker then
    match settings.selectedColors.find? (fun c =>
        ltThresholdSq (colorDistanceSquared (r : ℤ) g b c.r c.g c.b) c.tolerance) with
    | none => st
    | some c =>
      let distSq := colorDistanceSquared (r : ℤ) g b c.r c.g c.b
      if adv then
        (data, alphaMask.set i (jsRound (sqrtQ (distSq : ℚ) / c.tolerance * 255)).toNat)
      else if settings.edgeMode = EdgeMode.hard then
        (data.set (pixelIndex + 3) 0, alphaMask)
      else
        (data.set (pixelIndex + 3)
          (gaussianFalloff (sqrtQ (distSq : ℚ)) (c.tolerance * (7 / 10))
            (settings.featherRadius : ℚ)).toNat, alphaMask)
  else
    let distSq := colorDistanceSquared (r : ℤ) g b dominantColor.1 dominantColor.2.1
      dominantColor.2.2
    if ltThresholdSq distSq effectiveThreshold then
      if adv then
        (data, alphaMask.set i
          (jsRound (sqrtQ (distSq : ℚ) / effectiveThreshold * 255)).toNat)
      else if settings.edgeMode = EdgeMode.hard then
        (data.set (pixelIndex + 3) 0, alphaMask)
      else
        (data.set (pixelIndex + 3)
          (gaussianFalloff (sqrtQ (distSq : ℚ)) (effectiveThreshold * (7 / 10))
            (settings.featherRadius : ℚ)).toNat, alphaMask)
    else st

/-- `effectiveThreshold = mode === 'auto' ? autoThreshold : threshold`. -/
def effectiveThresholdOf (settings : ProcessingSettings) : ℚ :=
  if settings.mode = PMode.auto then settings.autoThreshold else settings.threshold

/-- `dominantColor`: `{255,255,255}` unless `mode` is `auto` or `manual`, in
which case `detectDominantColor`. -/
def dominantColorOf (img : ImageData) (settings : ProcessingSettings) : ℕ × ℕ × ℕ :=
  if settings.mode = PMode.auto ∨ settings.mode = PMode.manual then
    detectDominantColor img
  else (255, 255, 255)

/-- The chunk loop of `processImage`, returning the responses it posts and,
if it runs to completion, the final `(data, alphaMask)` state together with
the value of `isCancelled` after the last yield.

The worker is single-threaded: `isCancelled` can flip to `true` only while
`processImage` is suspended at the `await` ending a chunk iteration.
`arrival = some k` means the `cancel` message is delivered during the yield
at the end of chunk `k` (0-based); `arrival = none` means no cancel is
delivered while the job runs.  The remaining arguments are the loop
variables: remaining chunks, current chunk index, current `isCancelled`
value, `lastProgressUpdate`, and the mutable `(data, alphaMask)` state. -/
def runChunks (settings : ProcessingSettings) (dominantColor : ℕ × ℕ × ℕ)
    (effectiveThreshold : ℚ) (totalPixels : ℕ) (arrival : Option ℕ) :
    List (ℕ × ℕ) → ℕ → Bool → ℕ → List ℕ × List ℕ →
      List WorkerResponse × Option (List ℕ × List ℕ × Bool)
  | [], _, cancelled, _, st => ([], some (st.1, st.2, cancelled))
  | (lo, hi) :: rest, k, cancelled, lastProgressUpdate, st =>
    if cancelled then ([WorkerResponse.cancelled], none)
    else
      let st2 := (List.range' lo (hi - lo)).foldl
        (processPixel settings dominantColor effectiveThreshold) st
      let scale := if useAdvancedEdge settings.edgeMode then 50 else 100
      let progress := progressOf hi totalPixels scale
      let posts := if lastProgressUpdate + 10 ≤ progress
        then [WorkerResponse.progress (progress : ℤ)] else []
      let lpu2 := if lastProgressUpdate + 10 ≤ progress then progress
        else lastProgressUpdate
      let next := runChunks settings dominantColor effectiveThreshold totalPixels
        arrival rest (k + 1) (cancelled || decide (arrival = some k)) lpu2 st2
      (posts ++ next.1, next.2)

/-- The phase-1 part of `processImage`: the chunk loop run from the initial
state (`alphaMask` is allocated and filled with 255 only when an advanced
edge mode is in use; otherwise it is never read and is modelled as `[]`). -/
def phase1Result (img : ImageData) (settings : ProcessingSettings)
    (arrival : Option ℕ) :
    List WorkerResponse × Option (List ℕ × List ℕ × Bool) :=
  let totalPixels := img.width * img.height
  runChunks settings (dominantColorOf img settings) (effectiveThresholdOf settings)
    totalPixels arrival (chunkList totalPixels) 0 false 0
    (img.data, if useAdvancedEdge settings.edgeMode then
      List.replicate totalPixels 255 else [])

/-- Stamping of one applied magic region onto `data`
(`data[((rowOffset + bounds.x + localX) << 2) + 3] = alphaValue` for every
set mask bit; out-of-range writes are no-ops, as for JS typed arrays). -/
def applyRegion (width : ℕ) (data : List ℕ) (region : MagicRegion) : List ℕ :=
  let maskWidth := region.bounds.width
  let maskHeight := region.bounds.height
  let alphaValue := if region.mode = RegionMode.keep then 255 else 0
  let mask := decodeMaskFromRLE region.maskRLE (maskWidth * maskHeight)
  (List.range maskHeight).foldl (fun d localY =>
    (List.range maskWidth).foldl (fun d2 localX =>
      if mask.getD (localY * maskWidth + localX) 0 ≠ 0 then
        d2.set ((((region.bounds.y + localY) * width + region.bounds.x + localX) * 4)
          + 3) alphaValue
      else d2) d) data

/-- The `magicSelection.appliedRegions` stamping loop (a fold over `[]` when
there are no applied regions, matching the source's length guard). -/
def applyRegions (width : ℕ) (data : List ℕ) (regions : List MagicRegion) : List ℕ :=
  regions.foldl (applyRegion width) data

/-- `data[pixelIndex + 3] = processedMask[i]` for every `i < totalPixels`. -/
def applyAlphaMask (data mask : List ℕ) (totalPixels : ℕ) : List ℕ :=
  (List.range totalPixels).foldl (fun d i => d.set (i * 4 + 3) (mask.getD i 0)) data

/-- The `switch (edgeMode)` of phase 2 producing `processedMask`. -/
def processedMaskOf (settings : ProcessingSettings) (alphaMask : List ℕ)
    (width height : ℕ) : List ℕ :=
  match settings.edgeMode with
  | EdgeMode.smooth => smoothEdges alphaMask width height settings.featherRadius
  | EdgeMode.refine => refineEdges alphaMask width height settings.featherRadius
  | EdgeMode.decontaminate =>
      smoothEdges alphaMask width height (max 1 (settings.featherRadius / 2))
  | _ => alphaMask

/-- The final `data` buffer posted with `complete`, given the phase-1
result `(data1, alphaMask1)`: phase 2 (advanced edge processing and, for
`decontaminate`, color-spill removal) followed by magic-region stamping. -/
def finalData (img : ImageData) (settings : ProcessingSettings)
    (data1 alphaMask1 : List ℕ) : List ℕ :=
  let width := img.width
  let totalPixels := width * img.height
  let data3 :=
    if useAdvancedEdge settings.edgeMode then
      let processedMask := processedMaskOf settings alphaMask1 width img.height
      let data2 := applyAlphaMask data1 processedMask totalPixels
      if settings.edgeMode = EdgeMode.decontaminate then
        let bgColor :=
          match settings.mode, settings.selectedColors with
          | PMode.colorPicker, c :: _ => (c.r, c.g, c.b)
          | _, _ => dominantColorOf img settings
        decontaminateEdges data2 processedMask width img.height bgColor
          settings.featherRadius
      else data2
    else data1
  applyRegions width data3 settings.magicSelection.appliedRegions

/-- The full response trace of one `process` job: the chunk-loop responses,
then (unless the loop returned early on a cancel) either the phase-2
responses — a `cancelled` if the flag was set at the last yield, else
`progress 60/80/95` and the `complete` — or, without advanced edge
processing, the `complete` directly. -/
def processImageRun (img : ImageData) (settings : ProcessingSettings)
    (arrival : Option ℕ) : List WorkerResponse :=
  let run := phase1Result img settings arrival
  run.1 ++
    match run.2 with
    | none => []
    | some (d1, m1, c) =>
      if useAdvancedEdge settings.edgeMode then
        if c then [WorkerResponse.cancelled]
        else [WorkerResponse.progress 60, WorkerResponse.progress 80,
          WorkerResponse.progress 95,
          WorkerResponse.complete (finalData img settings d1 m1)]
      else [WorkerResponse.complete (finalData img settings d1 m1)]

def WorkerResponse.isCancelledResp : WorkerResponse → Bool
  | .cancelled => true
  | _ => false

def WorkerResponse.isCompleteResp : WorkerResponse → Bool
  | .complete _ => true
  | _ => false

/-- The manual-mode background count: the number of pixel indices whose
squared distance to the dominant color is strictly below the squared
threshold (`distSq < thresholdSquared`, the phase-1 match test). -/
def backgroundCount (img : ImageData) (t : ℚ) : ℕ :=
  let dom := detectDominantColor img
  (List.range (img.width * img.height)).countP fun i =>
    ltThresholdSq
      (colorDistanceSquared ((img.data.getD (i * 4) 0 : ℤ)) (img.data.getD (i * 4 + 1) 0)
        (img.data.getD (i * 4 + 2) 0) dom.1 dom.2.1 dom.2.2) t

/-! ## Invariants of the processing pipeline -/

/-- Every alpha byte (index `≡ 3 mod 4`) of `d` is 0 or 255 (out-of-range
positions read as 0). -/
def alphaBinary (d : List ℕ) : Prop :=
  ∀ i, i % 4 = 3 → d.getD i 0 = 0 ∨ d.getD i 0 = 255

/-- `d` agrees with `orig` in length and at every non-alpha byte. -/
def rgbPreserved (orig d : List ℕ) : Prop :=
  d.length = orig.length ∧ ∀ i, i % 4 ≠ 3 → d.getD i 0 = orig.getD i 0

theorem getD_set_general (d : List ℕ) (j v i : ℕ) :
    (d.set j v).getD i 0 = if i = j ∧ j < d.length then v else d.getD i 0 := by
  by_cases hij : i = j
  · subst hij
    by_cases hlen : i < d.length
    · rw [if_pos ⟨rfl, hlen⟩, List.getD_eq_getElem?_getD,
        List.getElem?_set_eq_of_lt _ hlen, Option.getD_some]
    · rw [if_neg (fun h => hlen h.2), List.set_eq_of_length_le (Nat.le_of_not_lt hlen)]
  · rw [if_neg (fun h => hij h.1), List.getD_eq_getElem?_getD,
      List.getElem?_set_ne (fun h => hij h.symm), ← List.getD_eq_getElem?_getD]

theorem alphaBinary_set {d : List ℕ} {v : ℕ} (j : ℕ)
    (hd : alphaBinary d) (hv : v = 0 ∨ v = 255) : alphaBinary (d.set j v) := by
  intro i hi
  rw [getD_set_general]
  by_cases h : i = j ∧ j < d.length
  · rw [if_pos h]; exact hv
  · rw [if_neg h]; exact hd i hi

theorem alphaBinary_of_bounded {d : List ℕ}
    (h : ∀ i < d.length, i % 4 = 3 → d.getD i 0 = 0 ∨ d.getD i 0 = 255) :
    alphaBinary d := by
  intro i hi
  by_cases hlen : i < d.length
  · exact h i hlen hi
  · left
    rw [List.getD_eq_getElem?_getD, List.getElem?_eq_none (Nat.le_of_not_lt hlen)]
    rfl

theorem rgbPreserved_set {orig d : List ℕ} {j v : ℕ}
    (h : rgbPreserved orig d) (hj : j % 4 = 3) : rgbPreserved orig (d.set j v) := by
  refine ⟨by rw [List.length_set]; exact h.1, fun i hi => ?_⟩
  rw [getD_set_general]
  have hij : ¬(i = j ∧ j < d.length) := fun hc => hi (hc.1 ▸ hj)
  rw [if_neg hij]
  exact h.2 i hi

theorem foldl_preserve {α β : Type} (P : α → Prop) (f : α → β → α) (l : List β)
    (a : α) (hf : ∀ x b, P x → P (f x b)) (ha : P a) : P (l.foldl f a) := by
  induction l generalizing a with
  | nil => exact ha
  | cons b t ih => exact ih _ (hf _ _ ha)

/-- Every store of `processPixel` hits an alpha byte with a binary value
when `edgeMode` is `hard`. -/
theorem processPixel_hard_alphaBinary (settings : ProcessingSettings)
    (dom : ℕ × ℕ × ℕ) (eff : ℚ) (st : List ℕ × List ℕ) (i : ℕ)
    (hmode : settings.edgeMode = EdgeMode.hard)
    (h : alphaBinary st.1) : alphaBinary (processPixel settings dom eff st i).1 := by
  have hadv : useAdvancedEdge settings.edgeMode = false := by
    rw [hmode]; rfl
  simp only [processPixel, hadv, hmode, Bool.false_eq_true, if_false, if_pos rfl]
  split
  · split
    · exact h
    · exact alphaBinary_set _ h (Or.inl rfl)
  · split
    · exact alphaBinary_set _ h (Or.inl rfl)
    · exact h

/-- `processPixel` never writes a non-alpha byte of `data` (all its `data`
stores are at `pixelIndex + 3`). -/
theorem processPixel_rgbPreserved (settings : ProcessingSettings)
    (dom : ℕ × ℕ × ℕ) (eff : ℚ) (orig : List ℕ) (st : List ℕ × List ℕ) (i : ℕ)
    (h : rgbPreserved orig st.1) :
    rgbPreserved orig (processPixel settings dom eff st i).1 := by
  have h3 : (i * 4 + 3) % 4 = 3 := by omega
  simp only [processPixel]
  split
  · split
    · exact h
    · split
      · exact h
      · split
        · exact rgbPreserved_set h h3
        · exact rgbPreserved_set h h3
  · split
    · split
      · exact h
      · split
        · exact rgbPreserved_set h h3
        · exact rgbPreserved_set h h3
    · exact h

/-- State preservation through the chunk loop: any property of
`(data, alphaMask)` preserved by `processPixel` holds of the final state. -/
theorem runChunks_snd_preserve (settings : ProcessingSettings)
    (dom : ℕ × ℕ × ℕ) (eff : ℚ) (tp : ℕ) (arrival : Option ℕ)
    (P : List ℕ × List ℕ → Prop)
    (hstep : ∀ st i, P st → P (processPixel settings dom eff st i)) :
    ∀ (chunks : List (ℕ × ℕ)) (k : ℕ) (c : Bool) (lpu : ℕ) (st : List ℕ × List ℕ)
      (d1 m1 : List ℕ) (cf : Bool), P st →
      (runChunks settings dom eff tp arrival chunks k c lpu st).2 = some (d1, m1, cf) →
      P (d1, m1) := by
  intro chunks
  induction chunks with
  | nil =>
    intro k c lpu st d1 m1 cf hP heq
    simp only [runChunks, Option.some.injEq, Prod.mk.injEq] at heq
    obtain ⟨h1, h2, _⟩ := heq
    rw [← h1, ← h2, Prod.mk.eta]
    exact hP
  | cons ch rest ih =>
    obtain ⟨lo, hi⟩ := ch
    intro k c lpu st d1 m1 cf hP heq
    simp only [runChunks] at heq
    split at heq
    · simp at heq
    · exact ih (k + 1) _ _ _ d1 m1 cf
        (foldl_preserve P (processPixel settings dom eff) _ st
          (fun x b hx => hstep x b hx) hP) heq

/-- The chunk loop never posts a `complete` response. -/
theorem runChunks_countP_complete (settings : ProcessingSettings)
    (dom : ℕ × ℕ × ℕ) (eff : ℚ) (tp : ℕ) (arrival : Option ℕ) :
    ∀ (chunks : List (ℕ × ℕ)) (k : ℕ) (c : Bool) (lpu : ℕ) (st : List ℕ × List ℕ),
      ((runChunks settings dom eff tp arrival chunks k c lpu st).1).countP
        WorkerResponse.isCompleteResp = 0 := by
  intro chunks
  induction chunks with
  | nil =>
    intro k c lpu st
    simp [runChunks]
  | cons ch rest ih =>
    obtain ⟨lo, hi⟩ := ch
    intro k c lpu st
    simp only [runChunks]
    split
    · simp [WorkerResponse.isCompleteResp]
    · rw [List.countP_append]
      have hif : ∀ (q : Prop) (inst : Decidable q) (p : ℤ),
          ((if q then [WorkerResponse.progress p] else []).countP
            WorkerResponse.isCompleteResp) = 0 := by
        intro q inst p
        split <;> simp [WorkerResponse.isCompleteResp]
      rw [hif, ih]

/-- Any `complete` response in a job's trace carries exactly the final
buffer `finalData` built from the phase-1 state. -/
theorem complete_mem_processImageRun {img : ImageData}
    {settings : ProcessingSettings} {arrival : Option ℕ} {d : List ℕ}
    (h : WorkerResponse.complete d ∈ processImageRun img settings arrival) :
    ∃ d1 m1 c, (phase1Result img settings arrival).2 = some (d1, m1, c)
      ∧ d = finalData img settings d1 m1 := by
  unfold processImageRun at h
  rcases List.mem_append.mp h with h1 | h2
  · exfalso
    have hpos : 0 < ((phase1Result img settings arrival).1).countP
        WorkerResponse.isCompleteResp :=
      List.countP_pos_iff.mpr ⟨_, h1, rfl⟩
    unfold phase1Result at hpos
    rw [runChunks_countP_complete] at hpos
    exact Nat.lt_irrefl 0 hpos
  · cases hrun : (phase1Result img settings arrival).2 with
    | none =>
      simp only [hrun] at h2
      exact absurd h2 (List.not_mem_nil _)
    | some trip =>
      obtain ⟨d1, m1, c⟩ := trip
      simp only [hrun] at h2
      refine ⟨d1, m1, c, rfl, ?_⟩
      split at h2
      · split at h2
        · rw [List.mem_singleton] at h2
          cases h2
        · simp only [List.mem_cons, List.not_mem_nil, or_false] at h2
          rcases h2 with h2 | h2 | h2 | h2
          · cases h2
          · cases h2
          · cases h2
          · injection h2 with h3
      · rw [List.mem_singleton] at h2
        injection h2 with h3

theorem applyRegion_alphaBinary {d : List ℕ} (width : ℕ) (region : MagicRegion)
    (h : alphaBinary d) : alphaBinary (applyRegion width d region) := by
  simp only [applyRegion]
  apply foldl_preserve alphaBinary
  · intro x b hx
    apply foldl_preserve alphaBinary
    · intro y bb hy
      split
      · apply alphaBinary_set _ hy
        split
        · exact Or.inr rfl
        · exact Or.inl rfl
      · exact hy
    · exact hx
  · exact h

theorem applyRegions_alphaBinary {d : List ℕ} (width : ℕ)
    (regions : List MagicRegion) (h : alphaBinary d) :
    alphaBinary (applyRegions width d regions) :=
  foldl_preserve alphaBinary (applyRegion width) regions d
    (fun x b hx => applyRegion_alphaBinary width b hx) h

theorem finalData_alphaBinary (img : ImageData) (settings : ProcessingSettings)
    (d1 m1 : List ℕ) (hmode : settings.edgeMode = EdgeMode.hard)
    (h : alphaBinary d1) : alphaBinary (finalData img settings d1 m1) := by
  have hadv : useAdvancedEdge settings.edgeMode = false := by rw [hmode]; rfl
  simp only [finalData, hadv, Bool.false_eq_true, if_false]
  exact applyRegions_alphaBinary _ _ h

theorem applyRegion_rgbPreserved {orig d : List ℕ} (width : ℕ)
    (region : MagicRegion) (h : rgbPreserved orig d) :
    rgbPreserved orig (applyRegion width d region) := by
  simp only [applyRegion]
  apply foldl_preserve (rgbPreserved orig)
  · intro x b hx
    apply foldl_preserve (rgbPreserved orig)
    · intro y bb hy
      split
      · exact rgbPreserved_set hy (by omega)
      · exact hy
    · exact hx
  · exact h

theorem applyRegions_rgbPreserved {orig d : List ℕ} (width : ℕ)
    (regions : List MagicRegion) (h : rgbPreserved orig d) :
    rgbPreserved orig (applyRegions width d regions) :=
  foldl_preserve (rgbPreserved orig) (applyRegion width) regions d
    (fun x b hx => applyRegion_rgbPreserved width b hx) h

theorem applyAlphaMask_rgbPreserved {orig d : List ℕ} (mask : List ℕ) (tp : ℕ)
    (h : rgbPreserved orig d) : rgbPreserved orig (applyAlphaMask d mask tp) := by
  simp only [applyAlphaMask]
  apply foldl_preserve (rgbPreserved orig)
  · intro x b hx
    exact rgbPreserved_set hx (by omega)
  · exact h

theorem finalData_rgbPreserved (img : ImageData) (settings : ProcessingSettings)
    (d1 m1 : List ℕ) (hmode : settings.edgeMode ≠ EdgeMode.decontaminate)
    (h : rgbPreserved img.data d1) :
    rgbPreserved img.data (finalData img settings d1 m1) := by
  simp only [finalData]
  apply applyRegions_rgbPreserved
  split
  · exact applyAlphaMask_rgbPreserved _ _ h
  · exact h

/-- C6 (amended): with `edgeMode = hard` and an input whose alpha bytes are
all 0 or 255, every alpha byte of any `complete` payload of the job is 0 or
255 — in every position `i ≡ 3 (mod 4)`, reading out-of-range as 0.  (For
inputs with an intermediate alpha byte this fails: an unmatched pixel keeps
its original alpha; see the counterexample.) -/
theorem claim_C6_hard_alpha (img : ImageData) (settings : ProcessingSettings)
    (arrival : Option ℕ) (d : List ℕ)
    (hmode : settings.edgeMode = EdgeMode.hard)
    (hin : ∀ i < img.data.length, i % 4 = 3 →
      img.data.getD i 0 = 0 ∨ img.data.getD i 0 = 255)
    (hd : WorkerResponse.complete d ∈ processImageRun img settings arrival) :
    ∀ i, i % 4 = 3 → d.getD i 0 = 0 ∨ d.getD i 0 = 255 := by
  obtain ⟨d1, m1, c, hrun, hfd⟩ := complete_mem_processImageRun hd
  simp only [phase1Result] at hrun
  have h0 : alphaBinary img.data := alphaBinary_of_bounded hin
  have hstate : alphaBinary d1 :=
    runChunks_snd_preserve settings (dominantColorOf img settings)
      (effectiveThresholdOf settings) (img.width * img.height) arrival
      (fun st => alphaBinary st.1)
      (fun st i hst => processPixel_hard_alphaBinary settings _ _ st i hmode hst)
      _ 0 false 0 _ d1 m1 c h0 hrun
  rw [hfd]
  exact finalData_alphaBinary img settings d1 m1 hmode hstate

/-- C10: for every edge mode other than `decontaminate`, the `complete`
payload has the same length as the input and agrees with it at every
non-alpha byte: all stores of phase 1, the mask application and the
magic-region stamping hit indices `≡ 3 (mod 4)` only. -/
theorem claim_C10_rgb_preserved (img : ImageData) (settings : ProcessingSettings)
    (arrival : Option ℕ) (d : List ℕ)
    (hmode : settings.edgeMode ≠ EdgeMode.decontaminate)
    (hd : WorkerResponse.complete d ∈ processImageRun img settings arrival) :
    d.length = img.data.length ∧
      ∀ i, i % 4 ≠ 3 → d.getD i 0 = img.data.getD i 0 := by
  obtain ⟨d1, m1, c, hrun, hfd⟩ := complete_mem_processImageRun hd
  simp only [phase1Result] at hrun
  have h0 : rgbPreserved img.data img.data := ⟨rfl, fun i _ => rfl⟩
  have hstate : rgbPreserved img.data d1 :=
    runChunks_snd_preserve settings (dominantColorOf img settings)
      (effectiveThresholdOf settings) (img.width * img.height) arrival
      (fun st => rgbPreserved img.data st.1)
      (fun st i hst => processPixel_rgbPreserved settings _ _ img.data st i hst)
      _ 0 false 0 _ d1 m1 c h0 hrun
  rw [hfd]
  exact finalData_rgbPreserved img settings d1 m1 hmode hstate

/-- C7: the manual-mode background count is monotone in the threshold: the
phase-1 match test is `distSq < t²`, and for `0 ≤ t1 ≤ t2` every pixel
matching under `t1` matches under `t2`. -/
theorem claim_C7_threshold_monotone (img : ImageData) (t1 t2 : ℚ)
    (h0 : 0 ≤ t1) (h12 : t1 ≤ t2) :
    backgroundCount img t1 ≤ backgroundCount img t2 := by
  unfold backgroundCount
  apply List.countP_mono_left
  intro i _ hp
  rw [ltThresholdSq_iff] at hp ⊢
  have hsq : t1 ^ 2 ≤ t2 ^ 2 := by
    have := pow_le_pow_left₀ h0 h12 2
    exact this
  linarith

theorem claim_C7_threshold_monotone_witness :
    backgroundCount whitePixelImage 0 ≤ backgroundCount whitePixelImage 1 :=
  claim_C7_threshold_monotone whitePixelImage 0 1 (le_refl 0) zero_le_one

/-- Once `isCancelled` is observed `true` at the top of a chunk iteration the
loop posts a single `cancelled` and returns early; with no chunk left the
flag is returned with the final state. -/
theorem runChunks_cancelled_true (settings : ProcessingSettings)
    (dom : ℕ × ℕ × ℕ) (eff : ℚ) (tp : ℕ) (arrival : Option ℕ) :
    ∀ (chunks : List (ℕ × ℕ)) (k : ℕ) (lpu : ℕ) (st : List ℕ × List ℕ),
      runChunks settings dom eff tp arrival chunks k true lpu st =
        match chunks with
        | [] => ([], some (st.1, st.2, true))
        | _ :: _ => ([WorkerResponse.cancelled], none) := by
  intro chunks k lpu st
  cases chunks with
  | nil => rfl
  | cons ch rest =>
    obtain ⟨lo, hi⟩ := ch
    simp [runChunks]

/-- Cancellation behaviour of the chunk loop when the `cancel` message
arrives during the yield ending chunk `k` and the loop starts uncancelled at
chunk index `j ≤ k`: if at least one chunk follows chunk `k`, the loop posts
exactly one `cancelled` and returns early; otherwise it completes, with the
final flag set iff chunk `k` was the last chunk run.  In either case the
progress posts contribute no `cancelled`. -/
theorem runChunks_cancel_counts (settings : ProcessingSettings)
    (dom : ℕ × ℕ × ℕ) (eff : ℚ) (tp : ℕ) (k : ℕ) :
    ∀ (chunks : List (ℕ × ℕ)) (j : ℕ) (lpu : ℕ) (st : List ℕ × List ℕ), j ≤ k →
      ((k + 1 < j + chunks.length →
        ((runChunks settings dom eff tp (some k) chunks j false lpu st).1.countP
            WorkerResponse.isCancelledResp = 1 ∧
          (runChunks settings dom eff tp (some k) chunks j false lpu st).2 = none)) ∧
       (j + chunks.length ≤ k + 1 →
        ((runChunks settings dom eff tp (some k) chunks j false lpu st).1.countP
            WorkerResponse.isCancelledResp = 0 ∧
          ∃ d1 m1, (runChunks settings dom eff tp (some k) chunks j false lpu st).2
            = some (d1, m1, decide (j + chunks.length = k + 1))))) := by
  intro chunks
  induction chunks with
  | nil =>
    intro j lpu st hj
    constructor
    · intro hlt
      exact absurd hlt (by simp only [List.length_nil, Nat.add_zero]; omega)
    · intro _
      refine ⟨by simp [runChunks], st.1, st.2, ?_⟩
      simp only [runChunks]
      have hfalse : decide (j + ([] : List (ℕ × ℕ)).length = k + 1) = false := by
        simp only [List.length_nil, Nat.add_zero]
        exact decide_eq_false (by omega)
      rw [hfalse]
  | cons ch rest ih =>
    obtain ⟨lo, hi⟩ := ch
    intro j lpu st hj
    set st2 := (List.range' lo (hi - lo)).foldl (processPixel settings dom eff) st
      with hst2
    set scale := (if useAdvancedEdge settings.edgeMode then (50 : ℕ) else 100)
      with hscale
    set prog := progressOf hi tp scale with hprog
    set posts := (if lpu + 10 ≤ prog then [WorkerResponse.progress (prog : ℤ)] else [])
      with hpostsdef
    set lpu2 := (if lpu + 10 ≤ prog then prog else lpu) with hlpu2
    have hcp : posts.countP WorkerResponse.isCancelledResp = 0 := by
      rw [hpostsdef]
      split <;> simp [WorkerResponse.isCancelledResp]
    have hunf : runChunks settings dom eff tp (some k) ((lo, hi) :: rest) j false lpu st
        = (posts ++ (runChunks settings dom eff tp (some k) rest (j + 1)
            (decide (some k = some j)) lpu2 st2).1,
          (runChunks settings dom eff tp (some k) rest (j + 1)
            (decide (some k = some j)) lpu2 st2).2) := by
      conv_lhs => rw [runChunks]
      rw [if_neg (by simp)]
      rfl
    rw [hunf]
    by_cases hkj : k = j
    · have hdec : decide ((some k : Option ℕ) = some j) = true := by
        subst hkj
        simp
      rw [hdec]
      cases rest with
      | nil =>
        rw [runChunks_cancelled_true]
        constructor
        · intro hlt
          exact absurd hlt (by simp only [List.length_cons, List.length_nil]; omega)
        · intro _
          refine ⟨by rw [List.countP_append, hcp, List.countP_nil], st2.1, st2.2, ?_⟩
          have htrue : decide (j + ((lo, hi) :: ([] : List (ℕ × ℕ))).length = k + 1)
              = true := by
            subst hkj
            simp
          rw [htrue]
      | cons r rs =>
        rw [runChunks_cancelled_true]
        constructor
        · intro _
          constructor
          · rw [List.countP_append, hcp]
            rfl
          · rfl
        · intro hle
          exact absurd hle (by simp only [List.length_cons]; omega)
    · have hdec : decide ((some k : Option ℕ) = some j) = false :=
        decide_eq_false (fun h => hkj (Option.some.inj h))
      rw [hdec]
      obtain ⟨IH1, IH2⟩ := ih (j + 1) lpu2 st2 (by omega)
      constructor
      · intro hlt
        have hlt' : k + 1 < (j + 1) + rest.length := by
          simp only [List.length_cons] at hlt
          omega
        obtain ⟨c1, c2⟩ := IH1 hlt'
        exact ⟨by rw [List.countP_append, hcp, c1], c2⟩
      · intro hle
        have hle' : (j + 1) + rest.length ≤ k + 1 := by
          simp only [List.length_cons] at hle
          omega
        obtain ⟨c1, d1, m1, c2⟩ := IH2 hle'
        refine ⟨by rw [List.countP_append, hcp, c1], d1, m1, ?_⟩
        have hiff : decide (j + ((lo, hi) :: rest).length = k + 1)
            = decide ((j + 1) + rest.length = k + 1) :=
          decide_eq_decide.mpr (by simp only [List.length_cons]; omega)
        rw [hiff]
        exact c2

theorem length_chunkList (tp : ℕ) : (chunkList tp).length = numChunks tp := by
  simp [chunkList]

/-- C5 (amended): a `cancel` delivered at the yield ending chunk `k` of a
running job produces exactly one `cancelled` response and no `complete` —
provided the cancellation is observable: either another chunk follows
(`k + 1 < numChunks`), or an advanced edge mode re-checks the flag after the
final yield.  (When the cancel arrives at the final yield of a basic-mode
job there is no later check and the job completes; see the
counterexample.) -/
theorem claim_C5_cancellation (img : ImageData) (settings : ProcessingSettings)
    (k : ℕ) (hk : k < numChunks (img.width * img.height))
    (hlate : useAdvancedEdge settings.edgeMode = true
      ∨ k + 1 < numChunks (img.width * img.height)) :
    (processImageRun img settings (some k)).countP WorkerResponse.isCancelledResp = 1
      ∧ (processImageRun img settings (some k)).countP
          WorkerResponse.isCompleteResp = 0 := by
  have hp : phase1Result img settings (some k)
      = runChunks settings (dominantColorOf img settings)
        (effectiveThresholdOf settings) (img.width * img.height) (some k)
        (chunkList (img.width * img.height)) 0 false 0
        (img.data, if useAdvancedEdge settings.edgeMode then
          List.replicate (img.width * img.height) 255 else []) := rfl
  obtain ⟨H1, H2⟩ := runChunks_cancel_counts settings (dominantColorOf img settings)
    (effectiveThresholdOf settings) (img.width * img.height) k
    (chunkList (img.width * img.height)) 0 0
    (img.data, if useAdvancedEdge settings.edgeMode then
      List.replicate (img.width * img.height) 255 else [])
    (Nat.zero_le k)
  rw [← hp] at H1 H2
  have hcompl : ((phase1Result img settings (some k)).1).countP
      WorkerResponse.isCompleteResp = 0 := by
    rw [hp]
    exact runChunks_countP_complete settings _ _ _ _ _ 0 false 0 _
  by_cases hc : k + 1 < numChunks (img.width * img.height)
  · obtain ⟨c1, c2⟩ := H1 (by rw [length_chunkList]; omega)
    have htr : processImageRun img settings (some k)
        = (phase1Result img settings (some k)).1 := by
      simp only [processImageRun, c2, List.append_nil]
    rw [htr]
    exact ⟨c1, hcompl⟩
  · have hadv : useAdvancedEdge settings.edgeMode = true := hlate.resolve_right hc
    obtain ⟨c1, d1, m1, hsome⟩ := H2 (by rw [length_chunkList]; omega)
    have hdec : decide ((0 : ℕ) + (chunkList (img.width * img.height)).length = k + 1)
        = true := decide_eq_true (by rw [length_chunkList]; omega)
    rw [hdec] at hsome
    have htr : processImageRun img settings (some k)
        = (phase1Result img settings (some k)).1 ++ [WorkerResponse.cancelled] := by
      simp only [processImageRun, hsome, hadv, eq_self_iff_true, if_true]
    rw [htr, List.countP_append, List.countP_append, c1, hcompl]
    constructor <;> rfl

def alpha128Image : ImageData := ⟨1, 1, [200, 200, 200, 128], rfl⟩

/-- Manual mode, threshold 0, hard edges, no feather, no magic regions. -/
def hardSettings0 : ProcessingSettings :=
  ⟨PMode.manual, 0, 0, [], EdgeMode.hard, 0, ⟨false, 0, none, []⟩⟩

/-- Manual mode, threshold 0, smooth edges (an advanced edge mode). -/
def smoothSettings : ProcessingSettings :=
  ⟨PMode.manual, 0, 0, [], EdgeMode.smooth, 1, ⟨false, 0, none, []⟩⟩

theorem claim_C5_cancellation_witness :
    (processImageRun alpha128Image smoothSettings (some 0)).countP
        WorkerResponse.isCancelledResp = 1
      ∧ (processImageRun alpha128Image smoothSettings (some 0)).countP
          WorkerResponse.isCompleteResp = 0 :=
  claim_C5_cancellation alpha128Image smoothSettings 0 (by decide)
    (Or.inl (by decide))

/-- C5 counterexample: on a single-chunk basic-mode job (1×1 buffer, hard
edges) a `cancel` delivered during the job's final yield — while the job is
still running — produces no `cancelled` response and the job still posts its
`complete`. -/
theorem claim_C5_counterexample :
    (processImageRun alpha128Image hardSettings0 (some 0)).countP
        WorkerResponse.isCancelledResp = 0
      ∧ (processImageRun alpha128Image hardSettings0 (some 0)).countP
          WorkerResponse.isCompleteResp = 1 := by
  constructor <;> rfl

/-- C6 counterexample: with hard edges, a pixel that does not match keeps
its original alpha byte: an input alpha of 128 survives to the `complete`
payload, so the output is not all-0-or-255. -/
theorem claim_C6_counterexample :
    ∃ d, WorkerResponse.complete d ∈ processImageRun alpha128Image hardSettings0 none
      ∧ ¬(d.getD 3 0 = 0 ∨ d.getD 3 0 = 255) :=
  ⟨[200, 200, 200, 128], by decide, by decide⟩

theorem claim_C6_hard_alpha_witness :
    ([0, 0, 0, 255] : List ℕ).getD 3 0 = 0
      ∨ ([0, 0, 0, 255] : List ℕ).getD 3 0 = 255 :=
  claim_C6_hard_alpha blackPixelImage hardSettings0 none [0, 0, 0, 255] rfl
    (by decide) (by decide) 3 rfl

theorem claim_C10_rgb_preserved_witness :
    ([200, 200, 200, 128] : List ℕ).length = alpha128Image.data.length
      ∧ ∀ i, i % 4 ≠ 3 → ([200, 200, 200, 128] : List ℕ).getD i 0
          = alpha128Image.data.getD i 0 :=
  claim_C10_rgb_preserved alpha128Image hardSettings0 none [200, 200, 200, 128]
    (by decide) (by decide)
